import Mathlib

/-!
Verification of the negotiagent-crawler traversal and discovery engine.

This file gives a shallow embedding of the crawler's core:
  * URL parsing/normalization/validation (`src/crawler.ts`: `normalizeUrl`,
    `isValidUrl`),
  * the BFS crawl loop (`src/crawler.ts`: `Crawler.crawl`),
  * hierarchical storage-key derivation (`src/index.ts`: `getHierarchicalKey`),
  * sitemap discovery (`src/discovery.ts`: `DiscoveryService.getUrlsFromRobotsTxt`,
    `DiscoveryService.fetchSitemap`),
and proves the spec's testable properties about these definitions.

Modelling conventions:
  * JavaScript's WHATWG `new URL` is embedded as `parseUrl` over a simplified
    absolute-URL grammar `scheme://host[path][?query][#fragment]` (scheme is a
    nonempty run of letters, host a nonempty run free of `/?#`, path starts
    with `/` when present and defaults to `/`).  Percent-encoding, punycode and
    dot-segment resolution are not modelled; none of the verified properties
    depend on them.
  * External collaborators (the Playwright renderer, the `RegExp` engine, the
    `axios` HTTP client, the XML parser and `md5`) are passed in as oracle
    functions; a thrown exception or failed fetch is an oracle `none`.
  * The crawl state carries a ghost `pushLog` listing every `queue.push`, and
    each `PageResult` carries a ghost `depth` field recording the depth of the
    queue entry it came from; both are observers used only to state claims.
  * Recursive sitemap resolution and the crawl's `while` loop are embedded
    with an explicit fuel parameter (the JS recursion/loop has no such bound;
    theorems quantify over fuel or assume the run completed).
-/

set_option linter.unusedVariables false

namespace Spec2Proof

/-- Lowercase of a character list; models JavaScript `toLowerCase` on the
ASCII strings the crawler handles. -/
def toLowerL (cs : List Char) : List Char := cs.map Char.toLower

/-- `listStartsWith cs p` models JavaScript `cs.startsWith(p)`. -/
def listStartsWith : List Char → List Char → Bool
  | _, [] => true
  | [], _ :: _ => false
  | c :: cs, p :: ps => c == p && listStartsWith cs ps

/-- Proposition: `a` is an initial segment of `b`. -/
def IsPre (a b : List Char) : Prop := ∃ t, a ++ t = b

/-! ## URL model (JavaScript `new URL` on absolute http(s)-style URLs) -/

/-- A parsed absolute URL `scheme://host[path][?query][#fragment]`.
`path` always starts with `'/'` (it defaults to `"/"`, as in WHATWG parsing of
special-scheme URLs); `query`/`frag` are stored without their `?`/`#` marker,
the empty list meaning absent. -/
structure Url where
  scheme : List Char
  host : List Char
  path : List Char
  query : List Char
  frag : List Char
deriving DecidableEq, Repr

/-- Character is not a host terminator. -/
def notDelim (c : Char) : Bool := !(c == '/' || c == '?' || c == '#')

/-- Character is neither `?` nor `#` (path continues). -/
def notQH (c : Char) : Bool := !(c == '?' || c == '#')

/-- Character is not `#`. -/
def notHash (c : Char) : Bool := !(c == '#')

/-- Split off the leading `scheme://` of a URL string; the scheme must be a
nonempty run of letters. -/
def splitScheme (cs : List Char) : Option (List Char × List Char) :=
  match cs.dropWhile Char.isAlpha with
  | ':' :: '/' :: '/' :: r =>
    if cs.takeWhile Char.isAlpha = [] then none else some (cs.takeWhile Char.isAlpha, r)
  | _ => none

/-- Fragment part of the residue left after the query: the text after `#`. -/
def parseFrag (cs : List Char) : List Char :=
  match cs with
  | '#' :: f => f
  | _ => []

/-- Path, query and fragment of the residue `r2` left after the host: the
path is the text up to the first `?` or `#` (defaulting to `"/"`), the query
the text between `?` and `#`, the fragment the text after `#`. -/
def parseTail (r2 : List Char) : List Char × List Char × List Char :=
  match r2.dropWhile notQH with
  | '?' :: r3 => (if r2.takeWhile notQH = [] then ['/'] else r2.takeWhile notQH,
                  r3.takeWhile notHash, parseFrag (r3.dropWhile notHash))
  | '#' :: f => (if r2.takeWhile notQH = [] then ['/'] else r2.takeWhile notQH, [], f)
  | _ => (if r2.takeWhile notQH = [] then ['/'] else r2.takeWhile notQH, [], [])

/-- Embedding of JavaScript `new URL(s)` for absolute URLs: `none` models the
constructor throwing. -/
def parseUrl (cs : List Char) : Option Url :=
  match splitScheme cs with
  | none => none
  | some (sch, r1) =>
    if r1.takeWhile notDelim = [] then none
    else some ⟨sch, r1.takeWhile notDelim,
               (parseTail (r1.dropWhile notDelim)).1,
               (parseTail (r1.dropWhile notDelim)).2.1,
               (parseTail (r1.dropWhile notDelim)).2.2⟩

/-- Serialization of a parsed URL (JavaScript `url.toString()`). -/
def serializeUrl (u : Url) : List Char :=
  u.scheme ++ ':' :: '/' :: '/' :: (u.host ++ u.path ++
    (if u.query = [] then [] else '?' :: u.query) ++
    (if u.frag = [] then [] else '#' :: u.frag))

/-- Origin of a parsed URL (JavaScript `url.origin`), as characters. -/
def originL (u : Url) : List Char := u.scheme ++ ':' :: '/' :: '/' :: u.host

/-- Origin of a parsed URL as a string. -/
def originS (u : Url) : String := String.mk (originL u)

/-! ## `Crawler.normalizeUrl` (src/crawler.ts lines 18-31) -/

/-- Path rewriting done by `normalizeUrl`: strip one trailing slash
(`pathname.slice(0, -1)`); the WHATWG `pathname` setter turns the resulting
empty path back into `"/"`. -/
def normPath (p : List Char) : List Char :=
  if p.getLast? = some '/' then (if p.dropLast = [] then ['/'] else p.dropLast)
  else (if p = [] then ['/'] else p)

/-- `Crawler.normalizeUrl` on character lists: parse, drop the fragment,
strip one trailing slash from the path; a parse failure yields `""`. -/
def normalizeL (cs : List Char) : List Char :=
  match parseUrl cs with
  | none => []
  | some u => serializeUrl { u with frag := [], path := normPath u.path }

/-- `Crawler.normalizeUrl` (src/crawler.ts lines 18-31). -/
def normalizeUrl (s : String) : String := String.mk (normalizeL s.data)

/-! ## `Crawler.isValidUrl` (src/crawler.ts lines 33-55) -/

/-- The non-document extension list of `isValidUrl` (src/crawler.ts line 48). -/
def extensionsList : List String :=
  [".jpg", ".jpeg", ".png", ".gif", ".pdf", ".css", ".js", ".ico", ".svg", ".mp4"]

/-- `Crawler.isValidUrl` (src/crawler.ts lines 33-55).  `test pat url` is the
oracle for JavaScript `new RegExp(pat).test(url)`; `excludePatterns` models
`request.excludePatterns` (`undefined` behaves as `[]`); `baseUrl` is the
crawler's current origin (`this.baseUrl`). -/
def isValidUrl (test : String → String → Bool) (excludePatterns : List String)
    (baseUrl : String) (url : String) : Bool :=
  if url = "" then false
  else
    match parseUrl url.data with
    | none => false
    | some u =>
      if originS u ≠ baseUrl then false
      else if excludePatterns.any (fun pat => test pat url) then false
      else if extensionsList.any (fun ext => List.isSuffixOf ext.data (toLowerL u.path)) then false
      else true

/-! ## `getHierarchicalKey` (src/index.ts lines 161-186) -/

/-- Path rewriting of `getHierarchicalKey`: ensure a leading `/`, strip one
trailing `/` when the path is longer than `/`, rewrite a bare `/` to
`/index`. -/
def hierPath (p : List Char) : List Char :=
  let p1 := if listStartsWith p ['/'] then p else '/' :: p
  let p2 := if p1.getLast? = some '/' ∧ 1 < p1.length then p1.dropLast else p1
  if p2 = ['/'] then "/index".data else p2

/-- `getHierarchicalKey` (src/index.ts lines 161-186).  `md5` is the oracle
for `crypto`'s md5 hex digest used by the hash-scheme fallback. -/
def getHierarchicalKey (md5 : String → String) (url : String) (domain : String) : String :=
  match parseUrl url.data with
  | some u => domain ++ String.mk (hierPath u.path)
  | none => domain ++ "/" ++ md5 url

/-- The page JSON key built at the call site (src/index.ts lines 301-302):
`getHierarchicalKey` plus the `".json"` suffix. -/
def pageJsonKey (md5 : String → String) (url : String) (domain : String) : String :=
  getHierarchicalKey md5 url domain ++ ".json"

/-! ## The crawl loop (src/crawler.ts `Crawler.crawl`, lines 57-152) -/

/-- The `CrawlRequest` of src/types.ts; `includeResources` is omitted (it only
affects resource extraction, outside every verified claim). -/
structure CrawlRequest where
  url : String
  depth : Option Nat
  maxPages : Option Nat
  excludePatterns : List String
  includeUrls : Option (List String)
deriving DecidableEq, Repr

/-- A `PageResult` (src/types.ts); `depth` is a ghost field recording the
depth of the queue entry the page came from. -/
structure PageResult where
  url : String
  title : String
  content : String
  links : List String
  depth : Nat
deriving DecidableEq, Repr

/-- The renderer's answer for one successfully handled page: `response` is
`response.url()` of `page.goto` (`none` models a `null` response), `links`
the output of `extractLinks`. -/
structure RenderOk where
  response : Option String
  title : String
  content : String
  links : List String
deriving DecidableEq, Repr

/-- The mutable state of one `Crawler.crawl` run.  `pushLog` is a ghost field
recording every `queue.push` in order. -/
structure CrawlState where
  visited : List String
  queue : List (String × Nat)
  results : List PageResult
  baseUrl : String
  pagesProcessed : Nat
  pushLog : List String
deriving DecidableEq, Repr

/-- Constructor plus seeding (src/crawler.ts lines 13-16 and 61-73): `none`
models the constructor throwing on an unparseable `request.url`; manifest
entries are each pushed at depth 0 and their normalizations added to
`visitedUrls`; otherwise the single seed is pushed. -/
def crawlInit (req : CrawlRequest) : Option CrawlState :=
  match parseUrl req.url.data with
  | none => none
  | some u =>
    match req.includeUrls with
    | some us =>
      if us ≠ [] then
        some { visited := us.foldl (fun v x => v.insert (normalizeUrl x)) [],
               queue := us.map (fun x => (x, 0)),
               results := [], baseUrl := originS u, pagesProcessed := 0, pushLog := us }
      else
        some { visited := [normalizeUrl req.url], queue := [(req.url, 0)],
               results := [], baseUrl := originS u, pagesProcessed := 0,
               pushLog := [req.url] }
    | none =>
      some { visited := [normalizeUrl req.url], queue := [(req.url, 0)],
             results := [], baseUrl := originS u, pagesProcessed := 0,
             pushLog := [req.url] }

/-- Depth gate of the loop (src/crawler.ts line 85): skip when
`request.depth !== undefined && current.depth > request.depth`. -/
def depthExceeded (depth : Option Nat) (d : Nat) : Bool :=
  match depth with
  | some D => decide (D < d)
  | none => false

/-- Link-expansion gate (src/crawler.ts line 125):
`request.depth === undefined || current.depth < request.depth`. -/
def depthAllowsLinks (depth : Option Nat) (d : Nat) : Bool :=
  match depth with
  | some D => decide (d < D)
  | none => true

/-- One iteration of the link loop (src/crawler.ts lines 127-139): normalize,
check `isValidUrl` and the visited set, check the seed-URL string-prefix
restriction, then mark visited and enqueue at `depth + 1`. -/
def pushLink (test : String → String → Bool) (req : CrawlRequest) (d : Nat)
    (s : CrawlState) (link : String) : CrawlState :=
  if isValidUrl test req.excludePatterns s.baseUrl link = true ∧ normalizeUrl link ∉ s.visited then
    if listStartsWith link.data req.url.data then
      { s with visited := s.visited.insert (normalizeUrl link),
               queue := s.queue ++ [(link, d + 1)],
               pushLog := s.pushLog ++ [link] }
    else s
  else s

/-- Redirect-driven origin rebasing (src/crawler.ts lines 108-116): on the
first processed page, outside manifest mode, with a non-null response, parse
the final URL and adopt its origin when it differs; `none` models
`new URL(response.url())` throwing, which aborts the page via the catch. -/
def rebaseState (req : CrawlRequest) (out : RenderOk) (st : CrawlState) : Option CrawlState :=
  if st.pagesProcessed = 0 ∧ req.includeUrls = none then
    match out.response with
    | some fu =>
      match parseUrl fu.data with
      | none => none
      | some fup =>
        if originS fup ≠ st.baseUrl then some { st with baseUrl := originS fup } else some st
    | none => some st
  else some st

/-- One iteration of the `while` loop body (src/crawler.ts lines 80-146):
pop, depth gate, render (a `none` render models `page.goto` throwing — caught,
nothing recorded), rebase, record the result, then link discovery outside
manifest mode. -/
def step (test : String → String → Bool) (render : String → Option RenderOk)
    (req : CrawlRequest) (st : CrawlState) : CrawlState :=
  match st.queue with
  | [] => st
  | (url, d) :: rest =>
    let st1 := { st with queue := rest }
    if depthExceeded req.depth d then st1
    else
      match render url with
      | none => st1
      | some out =>
        match rebaseState req out st1 with
        | none => st1
        | some st2 =>
          let st3 := { st2 with
            results := st2.results ++ [⟨url, out.title, out.content, out.links, d⟩],
            pagesProcessed := st2.pagesProcessed + 1 }
          if req.includeUrls = none ∧ depthAllowsLinks req.depth d = true then
            out.links.foldl (pushLink test req d) st3
          else st3

/-- Effective page cap (src/crawler.ts line 76): `request.maxPages ?? 50`. -/
def maxPagesOf (req : CrawlRequest) : Nat := req.maxPages.getD 50

/-- The crawl `while` loop (src/crawler.ts lines 80-146) with explicit fuel:
iterate `step` while the queue is nonempty and fewer than `maxPages` pages
have been processed. -/
def crawlLoop (test : String → String → Bool) (render : String → Option RenderOk)
    (req : CrawlRequest) : Nat → CrawlState → CrawlState
  | 0, st => st
  | fuel + 1, st =>
    if st.queue ≠ [] ∧ st.pagesProcessed < maxPagesOf req then
      crawlLoop test render req fuel (step test render req st)
    else st

/-- The run has reached the loop's exit condition. -/
def CrawlDone (req : CrawlRequest) (st : CrawlState) : Prop :=
  st.queue = [] ∨ maxPagesOf req ≤ st.pagesProcessed

/-- Manifest loading in `main` (src/index.ts lines 77-93): install
`includeUrls`, force `maxPages` to the manifest length, and default the
constructor URL to the first entry when none was given. -/
def applyManifest (req : CrawlRequest) (manifestUrls : List String) : CrawlRequest :=
  { req with
    includeUrls := some manifestUrls,
    maxPages := some manifestUrls.length,
    url := if req.url = "" then
             match manifestUrls with
             | u :: _ => u
             | [] => req.url
           else req.url }

/-! ## Sitemap discovery (src/discovery.ts) -/

/-- Outcome of fetching and XML-parsing a sitemap URL, as classified by
`fetchSitemap`: a `<sitemapindex>` with its `<sitemap><loc>` children, a
`<urlset>` with its `<url><loc>` entries (a `none` entry models a missing
`loc`), or any other document. -/
inductive SiteXml where
  | index (children : List (Option String))
  | urlset (entries : List (Option String))
  | other
deriving DecidableEq, Repr

/-- `DiscoveryService.fetchSitemap` (src/discovery.ts lines 95-130) with
explicit recursion fuel.  The oracle `hx` returns `none` when the fetch or the
XML parse fails (axios throw, non-2xx status, parse error), which the catch
turns into `[]` for that node.  JavaScript's `if (sm.loc)` / `if (entry.loc)`
truthiness skips missing and empty `loc` values. -/
def fetchSitemap (hx : String → Option SiteXml) : Nat → String → List String
  | 0, _ => []
  | fuel + 1, url =>
    match hx url with
    | none => []
    | some (.index children) =>
      children.flatMap (fun sm =>
        match sm with
        | some loc => if loc = "" then [] else fetchSitemap hx fuel loc
        | none => [])
    | some (.urlset entries) =>
      entries.filterMap (fun e =>
        match e with
        | some loc => if loc = "" then none else some loc
        | none => none)
    | some .other => []

/-- JavaScript whitespace test for `trim` (the characters relevant here). -/
def isWS (c : Char) : Bool := c == ' ' || c == '\t' || c == '\r' || c == '\n'

/-- JavaScript `String.prototype.trim`. -/
def trimL (cs : List Char) : List Char :=
  ((cs.dropWhile isWS).reverse.dropWhile isWS).reverse

/-- JavaScript `s.split('\n')` on character lists. -/
def splitLinesL (cs : List Char) : List (List Char) :=
  cs.foldr (fun c acc =>
    match acc with
    | [] => [[c]]
    | line :: rest => if c = '\n' then [] :: line :: rest else (c :: line) :: rest) [[]]

/-- Text after the first `": "` of a line, `none` when absent; together with
`beforeColonSpace` this models `line.split(': ')[1]`. -/
def afterColonSpace : List Char → Option (List Char)
  | ':' :: ' ' :: r => some r
  | _ :: r => afterColonSpace r
  | [] => none

/-- Text up to the next `": "` (the whole list when absent). -/
def beforeColonSpace : List Char → List Char
  | ':' :: ' ' :: _ => []
  | c :: r => c :: beforeColonSpace r
  | [] => []

/-- `line.split(': ')[1]?.trim()` of src/discovery.ts line 71. -/
def sitemapLineUrl (line : List Char) : Option (List Char) :=
  match afterColonSpace line with
  | none => none
  | some r => some (trimL (beforeColonSpace r))

/-- URLs gathered from the `sitemap:` lines of a robots.txt body
(src/discovery.ts lines 64-76): keep lines whose lowercase form starts with
`"sitemap:"`, extract the text between the first and second `": "`, trim it,
skip empty results, and resolve each through `fetchSitemap`. -/
def robotsLineUrls (hx : String → Option SiteXml) (fuel : Nat) (body : String) : List String :=
  ((splitLinesL body.data).filter
      (fun line => listStartsWith (toLowerL line) "sitemap:".data)).flatMap
    (fun line =>
      match sitemapLineUrl line with
      | none => []
      | some su => if su = [] then [] else fetchSitemap hx fuel (String.mk su))

/-- The common-location probe (src/discovery.ts lines 79-86): try
`/sitemap.xml`, `/sitemap_index.xml`, `/wp-sitemap.xml` in order and stop at
the first that yields any URL. -/
def probeCommon (hx : String → Option SiteXml) (fuel : Nat) (baseUrl : String) : List String :=
  if fetchSitemap hx fuel (baseUrl ++ "/sitemap.xml") ≠ [] then
    fetchSitemap hx fuel (baseUrl ++ "/sitemap.xml")
  else if fetchSitemap hx fuel (baseUrl ++ "/sitemap_index.xml") ≠ [] then
    fetchSitemap hx fuel (baseUrl ++ "/sitemap_index.xml")
  else fetchSitemap hx fuel (baseUrl ++ "/wp-sitemap.xml")

/-- `DiscoveryService.getUrlsFromRobotsTxt` (src/discovery.ts lines 56-93).
`htext url` is the oracle for `axios.get(url, validateStatus: always)` —
`none` models a thrown network error (caught, yielding `[]`), otherwise the
status and body text.  A non-200 status returns `[]` at once; with a 200
body, `sitemap:` lines are resolved, and only when they yield nothing are the
common locations probed. -/
def getUrlsFromRobotsTxt (htext : String → Option (Nat × String))
    (hx : String → Option SiteXml) (fuel : Nat) (baseUrl : String) : List String :=
  match htext (baseUrl ++ "/robots.txt") with
  | none => []
  | some (status, body) =>
    if status ≠ 200 then []
    else if robotsLineUrls hx fuel body ≠ [] then robotsLineUrls hx fuel body
    else probeCommon hx fuel baseUrl

/-! ## Concrete oracles, requests and states used by witnesses and
counterexamples -/

/-- Regex oracle matching nothing. -/
def noRegex : String → String → Bool := fun _ _ => false

/-- Simple stand-in regex engine: a pattern matches when it is a string
prefix of the URL. -/
def prefixRegex : String → String → Bool := fun pat url => listStartsWith url.data pat.data

/-- Renderer whose pages all load, report their own URL and no links. -/
def renderEcho : String → Option RenderOk :=
  fun u => some { response := some u, title := "t", content := "c", links := [] }

/-- Two-entry manifest request. -/
def w1req : CrawlRequest :=
  applyManifest
    { url := "https://a.com", depth := some 2, maxPages := some 50,
      excludePatterns := [], includeUrls := none }
    ["https://a.com/x", "https://a.com/y"]

/-- The initial state of `w1req`. -/
def w1st : CrawlState :=
  { visited := ["https://a.com/y", "https://a.com/x"],
    queue := [("https://a.com/x", 0), ("https://a.com/y", 0)],
    results := [], baseUrl := "https://a.com", pagesProcessed := 0,
    pushLog := ["https://a.com/x", "https://a.com/y"] }

/-- Single-seed request for small runs. -/
def w3req : CrawlRequest :=
  { url := "https://a.com", depth := some 1, maxPages := some 2,
    excludePatterns := [], includeUrls := none }

/-- The initial state of `w3req`. -/
def w3st : CrawlState :=
  { visited := ["https://a.com/"], queue := [("https://a.com", 0)], results := [],
    baseUrl := "https://a.com", pagesProcessed := 0, pushLog := ["https://a.com"] }

/-- HTTP oracle with robots.txt answering 404 while /sitemap.xml exists. -/
def c2htext : String → Option (Nat × String) := fun u =>
  if u = "https://a.com/robots.txt" then some (404, "") else none

/-- Sitemap oracle serving /sitemap.xml with one page URL. -/
def c2hx : String → Option SiteXml := fun u =>
  if u = "https://a.com/sitemap.xml" then some (.urlset [some "https://a.com/p1"]) else none

/-- HTTP oracle whose robots.txt lists one sitemap. -/
def w2htext : String → Option (Nat × String) := fun u =>
  if u = "https://a.com/robots.txt" then
    some (200, "User-agent: *\nSitemap: https://a.com/sm.xml")
  else none

/-- Sitemap oracle serving the robots-listed sitemap. -/
def w2hx : String → Option SiteXml := fun u =>
  if u = "https://a.com/sm.xml" then some (.urlset [some "https://a.com/q"]) else none

/-- Request with a duplicated manifest entry. -/
def c4req : CrawlRequest :=
  { url := "https://a.com", depth := some 2, maxPages := some 2,
    excludePatterns := [], includeUrls := some ["https://a.com/x", "https://a.com/x"] }

/-- Sitemap oracle: an index with a 3-URL child, a failing child and a 5-URL
child. -/
def c8hx : String → Option SiteXml := fun u =>
  if u = "https://s.com/root.xml" then
    some (.index [some "https://s.com/a.xml", some "https://s.com/bad.xml",
                  some "https://s.com/b.xml"])
  else if u = "https://s.com/a.xml" then
    some (.urlset [some "https://s.com/u1", some "https://s.com/u2", some "https://s.com/u3"])
  else if u = "https://s.com/b.xml" then
    some (.urlset [some "https://s.com/v1", some "https://s.com/v2", some "https://s.com/v3",
                   some "https://s.com/v4", some "https://s.com/v5"])
  else none

/-- Renderer that fails on one URL and succeeds on the rest. -/
def c9render : String → Option RenderOk := fun u =>
  if u = "https://a.com/f" then none
  else some { response := some u, title := "t", content := "c", links := [] }

/-- Request whose seed render fails. -/
def c9req : CrawlRequest :=
  { url := "https://a.com/f", depth := some 2, maxPages := some 50,
    excludePatterns := [], includeUrls := none }

/-- State with the failing URL queued first. -/
def c9st : CrawlState :=
  { visited := ["https://a.com/f", "https://a.com/g"],
    queue := [("https://a.com/f", 0), ("https://a.com/g", 0)],
    results := [], baseUrl := "https://a.com", pagesProcessed := 0,
    pushLog := ["https://a.com/f", "https://a.com/g"] }

/-- Request whose seed redirects to another origin whose string extends the
seed string. -/
def c10req : CrawlRequest :=
  { url := "https://a.co", depth := some 2, maxPages := some 50,
    excludePatterns := [], includeUrls := none }

/-- Renderer for the redirect counterexample: the seed redirects cross-origin
and pages keep linking within the new origin. -/
def c10render : String → Option RenderOk := fun u =>
  if u = "https://a.co" then
    some { response := some "https://a.com/", title := "t", content := "c",
           links := ["https://a.com/x"] }
  else if u = "https://a.com/x" then
    some { response := some "https://a.com/x", title := "t2", content := "c2",
           links := ["https://a.com/y"] }
  else none

/-- The initial state of `c10req`. -/
def c10st : CrawlState :=
  { visited := ["https://a.co/"], queue := [("https://a.co", 0)], results := [],
    baseUrl := "https://a.co", pagesProcessed := 0, pushLog := ["https://a.co"] }

/-- Request with a deep seed path, for the amended redirect claim. -/
def w10req : CrawlRequest :=
  { url := "https://a.co/shop", depth := some 3, maxPages := some 50,
    excludePatterns := [], includeUrls := none }

/-- Renderer serving same-origin links under the rebased origin. -/
def w10render : String → Option RenderOk := fun u =>
  some { response := some u, title := "t", content := "c", links := ["https://b.org/q"] }

/-- A state just after a cross-origin rebase away from `w10req`'s seed. -/
def w10st : CrawlState :=
  { visited := ["https://a.co/shop"],
    queue := [("https://b.org/p", 1)],
    results := [{ url := "https://a.co/shop", title := "t", content := "c",
                  links := [], depth := 0 }],
    baseUrl := "https://b.org", pagesProcessed := 1,
    pushLog := ["https://a.co/shop", "https://b.org/p"] }

/-! ## List helper lemmas -/

theorem takeWhile_app_of_all {p : Char → Bool} {xs : List Char} (ys : List Char)
    (h : ∀ x ∈ xs, p x = true) : (xs ++ ys).takeWhile p = xs ++ ys.takeWhile p := by
  induction xs with
  | nil => simp
  | cons a l ih =>
    simp only [List.cons_append, List.takeWhile_cons]
    rw [h a (by simp)]
    simp only [if_true, List.cons.injEq, true_and]
    exact ih (fun x hx => h x (by simp [hx]))

theorem dropWhile_app_of_all {p : Char → Bool} {xs : List Char} (ys : List Char)
    (h : ∀ x ∈ xs, p x = true) : (xs ++ ys).dropWhile p = ys.dropWhile p := by
  induction xs with
  | nil => simp
  | cons a l ih =>
    simp only [List.cons_append, List.dropWhile_cons]
    rw [h a (by simp)]
    simp only [if_true]
    exact ih (fun x hx => h x (by simp [hx]))

theorem takeWhile_all {p : Char → Bool} {l : List Char} (h : ∀ x ∈ l, p x = true) :
    l.takeWhile p = l := by
  have h2 := takeWhile_app_of_all ([] : List Char) h
  simpa using h2

theorem dropWhile_all {p : Char → Bool} {l : List Char} (h : ∀ x ∈ l, p x = true) :
    l.dropWhile p = [] := by
  have h2 := dropWhile_app_of_all ([] : List Char) h
  simpa using h2

theorem dropWhile_head_false {p : Char → Bool} {l : List Char} {c : Char} {r : List Char}
    (h : l.dropWhile p = c :: r) : p c = false := by
  induction l with
  | nil => simp at h
  | cons a t ih =>
    rw [List.dropWhile_cons] at h
    by_cases hp : p a
    · rw [if_pos hp] at h; exact ih h
    · rw [if_neg hp] at h
      cases h
      exact Bool.eq_false_iff.mpr hp

theorem mem_takeWhile_pred {p : Char → Bool} {l : List Char} {c : Char}
    (h : c ∈ l.takeWhile p) : p c = true := by
  induction l with
  | nil => simp at h
  | cons a t ih =>
    rw [List.takeWhile_cons] at h
    by_cases hp : p a
    · rw [if_pos hp] at h
      rcases List.mem_cons.mp h with h1 | h2
      · exact h1 ▸ hp
      · exact ih h2
    · rw [if_neg hp] at h; simp at h

theorem mem_dropLast_mem {c : Char} : ∀ {l : List Char}, c ∈ l.dropLast → c ∈ l := by
  intro l
  induction l with
  | nil => intro h; simp at h
  | cons a t ih =>
    intro h
    cases t with
    | nil => simp at h
    | cons b t' =>
      rw [List.dropLast_cons₂] at h
      rcases List.mem_cons.mp h with h1 | h2
      · exact h1 ▸ List.mem_cons_self a _
      · exact List.mem_cons_of_mem a (ih h2)

theorem head?_dropLast {l : List Char} (h : l.dropLast ≠ []) :
    l.dropLast.head? = l.head? := by
  cases l with
  | nil => simp at h
  | cons a t =>
    cases t with
    | nil => simp at h
    | cons b t' => rw [List.dropLast_cons₂]; simp

/-- `listStartsWith` decides `IsPre`. -/
theorem listStartsWith_iff {a p : List Char} : listStartsWith a p = true ↔ IsPre p a := by
  induction p generalizing a with
  | nil =>
    constructor
    · intro _; exact ⟨a, rfl⟩
    · intro _; cases a <;> rfl
  | cons x ps ih =>
    cases a with
    | nil =>
      constructor
      · intro h; simp [listStartsWith] at h
      · rintro ⟨t, ht⟩; simp at ht
    | cons c cs =>
      simp only [listStartsWith, Bool.and_eq_true, beq_iff_eq]
      constructor
      · rintro ⟨h1, h2⟩
        rcases ih.mp h2 with ⟨t, ht⟩
        exact ⟨t, by simp [h1, ht]⟩
      · rintro ⟨t, ht⟩
        simp only [List.cons_append, List.cons.injEq] at ht
        exact ⟨ht.1.symm, ih.mpr ⟨t, ht.2⟩⟩

theorem isPre_total {a b c : List Char} (ha : IsPre a c) (hb : IsPre b c) :
    IsPre a b ∨ IsPre b a := by
  induction c generalizing a b with
  | nil =>
    rcases ha with ⟨t, ht⟩; rcases hb with ⟨s, hs⟩
    rcases List.append_eq_nil.mp ht with ⟨rfl, _⟩
    exact Or.inl ⟨b, rfl⟩
  | cons x cs ih =>
    rcases ha with ⟨t, ht⟩; rcases hb with ⟨s, hs⟩
    cases a with
    | nil => exact Or.inl ⟨b, rfl⟩
    | cons a0 as =>
      cases b with
      | nil => exact Or.inr ⟨a0 :: as, rfl⟩
      | cons b0 bs =>
        simp only [List.cons_append, List.cons.injEq] at ht hs
        rcases ih ⟨t, ht.2⟩ ⟨s, hs.2⟩ with h | h
        · rcases h with ⟨t', ht'⟩
          exact Or.inl ⟨t', by simp [ht.1, hs.1.symm, ht']⟩
        · rcases h with ⟨t', ht'⟩
          exact Or.inr ⟨t', by simp [ht.1.symm, hs.1, ht']⟩

/-! ## Well-formedness of parsed URLs and the parse/serialize roundtrip -/

/-- Structural facts true of every `parseUrl` output and preserved by
normalization; they make serialization parse back to the same `Url`. -/
structure UrlWF (u : Url) : Prop where
  scheme_ne : u.scheme ≠ []
  scheme_alpha : ∀ c ∈ u.scheme, c.isAlpha = true
  host_ne : u.host ≠ []
  host_chars : ∀ c ∈ u.host, notDelim c = true
  path_ne : u.path ≠ []
  path_head : u.path.head? = some '/'
  path_chars : ∀ c ∈ u.path, notQH c = true
  query_chars : ∀ c ∈ u.query, notHash c = true

theorem splitScheme_elim {cs sch r1 : List Char} (h : splitScheme cs = some (sch, r1)) :
    sch = cs.takeWhile Char.isAlpha ∧ sch ≠ [] ∧
    cs.dropWhile Char.isAlpha = ':' :: '/' :: '/' :: r1 := by
  unfold splitScheme at h
  split at h
  case h_1 r heq =>
    by_cases hsch : cs.takeWhile Char.isAlpha = []
    · rw [if_pos hsch] at h; exact absurd h (by simp)
    · rw [if_neg hsch] at h
      injection h with h'
      injection h' with h1 h2
      exact ⟨h1.symm, h1.symm ▸ hsch, by rw [heq, h2]⟩
  case h_2 => exact absurd h (by simp)

/-- A character that terminates a host but not a path is the slash. -/
theorem delim_notQH_slash {c : Char} (h1 : notDelim c = false) (h2 : notQH c = true) :
    c = '/' := by
  unfold notDelim at h1
  unfold notQH at h2
  simp only [Bool.not_eq_false', Bool.or_eq_true_iff, beq_iff_eq] at h1
  simp only [Bool.not_eq_true', Bool.or_eq_false_iff, beq_eq_false_iff_ne, ne_eq] at h2
  rcases h1 with (h | h) | h
  · exact h
  · exact absurd h h2.1
  · exact absurd h h2.2

/-- The path produced by `parseTail`. -/
theorem parseTail_path_eq (l : List Char) :
    (parseTail l).1 = if l.takeWhile notQH = [] then ['/'] else l.takeWhile notQH := by
  unfold parseTail
  split <;> rfl

/-- Query characters produced by `parseTail` never contain `#`. -/
theorem parseTail_query_chars (l : List Char) :
    ∀ c ∈ (parseTail l).2.1, notHash c = true := by
  unfold parseTail
  split
  · intro c hc
    exact mem_takeWhile_pred hc
  · intro c hc; simp at hc
  · intro c hc; simp at hc

/-- Heads left by `dropWhile notDelim` are delimiters; `parseTail` of such a
residue yields a well-formed path and query. -/
theorem parseTail_wf {r2 : List Char}
    (hr : r2 = [] ∨ ∃ c r', r2 = c :: r' ∧ notDelim c = false) :
    (parseTail r2).1 ≠ [] ∧ (parseTail r2).1.head? = some '/' ∧
    (∀ c ∈ (parseTail r2).1, notQH c = true) ∧
    (∀ c ∈ (parseTail r2).2.1, notHash c = true) := by
  refine ⟨?_, ?_, ?_, parseTail_query_chars r2⟩
  · rw [parseTail_path_eq]
    by_cases hemp : r2.takeWhile notQH = []
    · rw [if_pos hemp]; simp
    · rw [if_neg hemp]; exact hemp
  · rw [parseTail_path_eq]
    by_cases hemp : r2.takeWhile notQH = []
    · rw [if_pos hemp]; rfl
    · rw [if_neg hemp]
      rcases hr with rfl | ⟨c, r', rfl, hc⟩
      · simp at hemp
      · rw [List.takeWhile_cons] at hemp ⊢
        by_cases hcq : notQH c
        · rw [if_pos hcq]
          rw [delim_notQH_slash hc hcq]
          rfl
        · rw [if_neg hcq] at hemp; simp at hemp
  · rw [parseTail_path_eq]
    by_cases hemp : r2.takeWhile notQH = []
    · rw [if_pos hemp]
      intro c hc
      simp only [List.mem_singleton] at hc
      subst hc
      rfl
    · rw [if_neg hemp]
      intro c hc
      exact mem_takeWhile_pred hc

/-- Every `parseUrl` output is well-formed. -/
theorem parseUrl_wf {cs : List Char} {u : Url} (h : parseUrl cs = some u) : UrlWF u := by
  unfold parseUrl at h
  split at h
  case h_1 => exact absurd h (by simp)
  case h_2 sch r1 heq =>
    by_cases hhost : r1.takeWhile notDelim = []
    · rw [if_pos hhost] at h; exact absurd h (by simp)
    · rw [if_neg hhost] at h
      injection h with h
      obtain ⟨hsch, hne, _⟩ := splitScheme_elim heq
      have hdrop : r1.dropWhile notDelim = [] ∨
          ∃ c r', r1.dropWhile notDelim = c :: r' ∧ notDelim c = false := by
        cases hd : r1.dropWhile notDelim with
        | nil => exact Or.inl rfl
        | cons c r' => exact Or.inr ⟨c, r', rfl, dropWhile_head_false hd⟩
      obtain ⟨t1, t2, t3, t4⟩ := parseTail_wf hdrop
      subst h
      exact ⟨hne, fun c hc => mem_takeWhile_pred (hsch ▸ hc),
             hhost, fun c hc => mem_takeWhile_pred hc, t1, t2, t3, t4⟩

/-- `parseTail` on a bare well-formed path. -/
theorem parseTail_bare {path : List Char} (hp : path ≠ [])
    (hpath : ∀ c ∈ path, notQH c = true) : parseTail path = (path, [], []) := by
  unfold parseTail
  rw [dropWhile_all hpath, takeWhile_all hpath]
  simp [hp]

/-- `parseTail` on a path followed by a fragment only. -/
theorem parseTail_hash {path f : List Char} (hp : path ≠ [])
    (hpath : ∀ c ∈ path, notQH c = true) :
    parseTail (path ++ '#' :: f) = (path, [], f) := by
  unfold parseTail
  rw [dropWhile_app_of_all _ hpath, takeWhile_app_of_all _ hpath]
  have h1 : notQH '#' = false := by decide
  rw [List.dropWhile_cons, List.takeWhile_cons, h1]
  simp [hp]

/-- `parseTail` on a path followed by a query only. -/
theorem parseTail_query {path q : List Char} (hp : path ≠ [])
    (hpath : ∀ c ∈ path, notQH c = true) (hq : ∀ c ∈ q, notHash c = true) :
    parseTail (path ++ '?' :: q) = (path, q, []) := by
  unfold parseTail
  rw [dropWhile_app_of_all _ hpath, takeWhile_app_of_all _ hpath]
  have h1 : notQH '?' = false := by decide
  rw [List.dropWhile_cons, List.takeWhile_cons, h1]
  simp only [Bool.false_eq_true, if_false, List.append_nil]
  rw [dropWhile_all hq, takeWhile_all hq]
  simp [hp, parseFrag]

/-- `parseTail` on a path followed by a query and a fragment. -/
theorem parseTail_query_hash {path q f : List Char} (hp : path ≠ [])
    (hpath : ∀ c ∈ path, notQH c = true) (hq : ∀ c ∈ q, notHash c = true) :
    parseTail (path ++ '?' :: (q ++ '#' :: f)) = (path, q, f) := by
  unfold parseTail
  rw [dropWhile_app_of_all _ hpath, takeWhile_app_of_all _ hpath]
  have h1 : notQH '?' = false := by decide
  rw [List.dropWhile_cons, List.takeWhile_cons, h1]
  simp only [Bool.false_eq_true, if_false, List.append_nil]
  rw [dropWhile_app_of_all _ hq, takeWhile_app_of_all _ hq]
  have h2 : notHash '#' = false := by decide
  rw [List.dropWhile_cons, List.takeWhile_cons, h2]
  simp [hp, parseFrag]

/-- The serialized tail of a URL: everything after the origin. -/
def tailSer (u : Url) : List Char :=
  u.path ++ (if u.query = [] then [] else '?' :: u.query) ++
    (if u.frag = [] then [] else '#' :: u.frag)

/-- Serialization splits into origin and tail. -/
theorem serializeUrl_eq (u : Url) :
    serializeUrl u = u.scheme ++ ':' :: '/' :: '/' :: (u.host ++ tailSer u) := by
  unfold serializeUrl tailSer
  simp [List.append_assoc]

/-- `parseTail` recovers the components of a well-formed URL from its
serialized tail. -/
theorem parseTail_tailSer {u : Url} (h : UrlWF u) :
    parseTail (tailSer u) = (u.path, u.query, u.frag) := by
  unfold tailSer
  by_cases hqe : u.query = []
  · by_cases hfe : u.frag = []
    · rw [if_pos hqe, if_pos hfe, List.append_nil, List.append_nil, hqe, hfe]
      exact parseTail_bare h.path_ne h.path_chars
    · rw [if_pos hqe, if_neg hfe, List.append_nil, hqe]
      exact parseTail_hash h.path_ne h.path_chars
  · by_cases hfe : u.frag = []
    · rw [if_neg hqe, if_pos hfe, List.append_nil, hfe]
      exact parseTail_query h.path_ne h.path_chars h.query_chars
    · rw [if_neg hqe, if_neg hfe, List.append_assoc, List.cons_append]
      exact parseTail_query_hash h.path_ne h.path_chars h.query_chars

/-- A well-formed URL's tail starts with a slash. -/
theorem tailSer_head {u : Url} (h : UrlWF u) : ∃ t, tailSer u = '/' :: t := by
  obtain ⟨p0, pt, hp0⟩ : ∃ p0 pt, u.path = p0 :: pt := by
    cases hpd : u.path with
    | nil => exact absurd hpd h.path_ne
    | cons a t => exact ⟨a, t, rfl⟩
  have hp0s : p0 = '/' := by
    have h3 := h.path_head
    rw [hp0] at h3
    simp only [List.head?_cons, Option.some.injEq] at h3
    exact h3
  refine ⟨pt ++ (if u.query = [] then [] else '?' :: u.query) ++
    (if u.frag = [] then [] else '#' :: u.frag), ?_⟩
  unfold tailSer
  rw [hp0, hp0s]
  simp [List.append_assoc]

/-- Serialization of a well-formed URL parses back to it. -/
theorem parseUrl_serialize {u : Url} (h : UrlWF u) : parseUrl (serializeUrl u) = some u := by
  have hcolon : Char.isAlpha ':' = false := by decide
  have hsplit : splitScheme (serializeUrl u) = some (u.scheme, u.host ++ tailSer u) := by
    unfold splitScheme
    rw [serializeUrl_eq, dropWhile_app_of_all _ h.scheme_alpha,
        takeWhile_app_of_all _ h.scheme_alpha, List.dropWhile_cons, List.takeWhile_cons, hcolon]
    simp [h.scheme_ne]
  obtain ⟨t, ht⟩ := tailSer_head h
  have hslash : notDelim '/' = false := by decide
  have htw : (u.host ++ tailSer u).takeWhile notDelim = u.host := by
    rw [takeWhile_app_of_all _ h.host_chars, ht, List.takeWhile_cons, hslash]
    simp
  have hdw : (u.host ++ tailSer u).dropWhile notDelim = tailSer u := by
    rw [dropWhile_app_of_all _ h.host_chars, ht, List.dropWhile_cons, hslash]
    simp
  unfold parseUrl
  rw [hsplit]
  simp only [htw, hdw, if_neg h.host_ne, parseTail_tailSer h]

/-- A parsed URL's source string starts with its origin, and the residue, when
nonempty, starts with one of `/`, `?`, `#`. -/
theorem parseUrl_decomp {cs : List Char} {u : Url} (h : parseUrl cs = some u) :
    ∃ r, cs = originL u ++ r ∧
      (r = [] ∨ ∃ c r2, r = c :: r2 ∧ notDelim c = false) := by
  unfold parseUrl at h
  split at h
  case h_1 => exact absurd h (by simp)
  case h_2 sch r1 heq =>
    by_cases hhost : r1.takeWhile notDelim = []
    · rw [if_pos hhost] at h; exact absurd h (by simp)
    · rw [if_neg hhost] at h
      injection h with h
      obtain ⟨hsch, hne, hdrop⟩ := splitScheme_elim heq
      refine ⟨r1.dropWhile notDelim, ?_, ?_⟩
      · have hcs : cs = cs.takeWhile Char.isAlpha ++ cs.dropWhile Char.isAlpha :=
          (List.takeWhile_append_dropWhile _ _).symm
        have hr1 : r1 = r1.takeWhile notDelim ++ r1.dropWhile notDelim :=
          (List.takeWhile_append_dropWhile _ _).symm
        subst h
        unfold originL
        conv_lhs => rw [hcs]
        rw [hdrop, ← hsch]
        simp only [List.append_assoc, List.cons_append, List.nil_append,
          List.append_cancel_left_eq, List.cons.injEq, true_and]
        exact hr1
      · cases hd : r1.dropWhile notDelim with
        | nil => exact Or.inl rfl
        | cons c r' => exact Or.inr ⟨c, r', rfl, dropWhile_head_false hd⟩

/-- Parsing a well-formed origin followed by a delimiter-headed (or empty)
residue recovers that origin's scheme and host. -/
theorem parseUrl_origin_head {q : Url} (hq : UrlWF q) {r : List Char}
    (hr : r = [] ∨ ∃ c r2, r = c :: r2 ∧ notDelim c = false) {u : Url}
    (h : parseUrl (originL q ++ r) = some u) : u.scheme = q.scheme ∧ u.host = q.host := by
  have hcolon : Char.isAlpha ':' = false := by decide
  have horig : originL q ++ r = q.scheme ++ ':' :: '/' :: '/' :: (q.host ++ r) := by
    unfold originL
    simp [List.append_assoc]
  have hsplit : splitScheme (originL q ++ r) = some (q.scheme, q.host ++ r) := by
    unfold splitScheme
    rw [horig, dropWhile_app_of_all _ hq.scheme_alpha, takeWhile_app_of_all _ hq.scheme_alpha,
        List.dropWhile_cons, List.takeWhile_cons, hcolon]
    simp [hq.scheme_ne]
  have htw : (q.host ++ r).takeWhile notDelim = q.host := by
    rw [takeWhile_app_of_all _ hq.host_chars]
    rcases hr with rfl | ⟨c, r2, rfl, hc⟩
    · simp
    · rw [List.takeWhile_cons, hc]
      simp
  unfold parseUrl at h
  rw [hsplit] at h
  simp only [htw, if_neg hq.host_ne] at h
  injection h with h
  subst h
  exact ⟨rfl, rfl⟩

/-! ## Normalization lemmas -/

/-- `normPath` preserves the path part of well-formedness. -/
theorem normPath_parts {p : List Char} (hne : p ≠ []) (hhead : p.head? = some '/')
    (hchars : ∀ c ∈ p, notQH c = true) :
    normPath p ≠ [] ∧ (normPath p).head? = some '/' ∧ (∀ c ∈ normPath p, notQH c = true) := by
  unfold normPath
  by_cases hlast : p.getLast? = some '/'
  · rw [if_pos hlast]
    by_cases hdl : p.dropLast = []
    · rw [if_pos hdl]
      refine ⟨by simp, rfl, ?_⟩
      intro c hc
      simp only [List.mem_singleton] at hc
      subst hc
      rfl
    · rw [if_neg hdl]
      exact ⟨hdl, (head?_dropLast hdl).trans hhead,
             fun c hc => hchars c (mem_dropLast_mem hc)⟩
  · rw [if_neg hlast, if_neg hne]
    exact ⟨hne, hhead, hchars⟩

/-- `normPath` of the root path. -/
theorem normPath_root : normPath ['/'] = ['/'] := by decide

/-- `normPath` is idempotent except when the path ends in a double slash
longer than `"//"` itself. -/
theorem normPath_idem {p : List Char}
    (hp : p.getLast? = some '/' → p.dropLast.getLast? = some '/' → p.dropLast = ['/']) :
    normPath (normPath p) = normPath p := by
  by_cases hlast : p.getLast? = some '/'
  · by_cases hdl : p.dropLast = []
    · have h1 : normPath p = ['/'] := by
        unfold normPath
        rw [if_pos hlast, if_pos hdl]
      rw [h1, normPath_root]
    · have h1 : normPath p = p.dropLast := by
        unfold normPath
        rw [if_pos hlast, if_neg hdl]
      rw [h1]
      by_cases hdl2 : p.dropLast.getLast? = some '/'
      · rw [hp hlast hdl2, normPath_root]
      · unfold normPath
        rw [if_neg hdl2, if_neg hdl]
  · have h1 : normPath p = if p = [] then ['/'] else p := by
      unfold normPath
      rw [if_neg hlast]
    rw [h1]
    by_cases hpe : p = []
    · rw [if_pos hpe, normPath_root]
    · rw [if_neg hpe]
      unfold normPath
      rw [if_neg hlast, if_neg hpe]

/-- Updating the fragment and path of a URL whose fragment is already empty
and whose path is unchanged is the identity. -/
theorem url_update_self {v : Url} (hf : v.frag = []) (q : List Char) (hq : q = v.path) :
    ({ v with frag := [], path := q } : Url) = v := by
  cases v
  simp only at hf
  subst hf hq
  rfl

/-- Normalizing an already-normalized URL string changes nothing, provided
stripping the path's trailing slash does not expose a second one. -/
theorem normalizeL_idem {cs : List Char} {u : Url} (h : parseUrl cs = some u)
    (hp : u.path.getLast? = some '/' → u.path.dropLast.getLast? = some '/' →
      u.path.dropLast = ['/']) :
    normalizeL (normalizeL cs) = normalizeL cs := by
  have hwf := parseUrl_wf h
  have h1 : normalizeL cs = serializeUrl { u with frag := [], path := normPath u.path } := by
    unfold normalizeL
    rw [h]
  have hwf' : UrlWF { u with frag := [], path := normPath u.path } := by
    obtain ⟨n1, n2, n3⟩ := normPath_parts hwf.path_ne hwf.path_head hwf.path_chars
    exact ⟨hwf.scheme_ne, hwf.scheme_alpha, hwf.host_ne, hwf.host_chars, n1, n2, n3,
           fun c hc => hwf.query_chars c hc⟩
  have h2 := parseUrl_serialize hwf'
  have h3 : ({ { u with frag := [], path := normPath u.path } with
      frag := [], path := normPath (normPath u.path) } : Url) =
      { u with frag := [], path := normPath u.path } :=
    url_update_self rfl _ (normPath_idem hp)
  rw [h1]
  unfold normalizeL
  rw [h2]
  exact congrArg serializeUrl h3

/-! ## Crawl loop lemmas -/

/-- The depth gate never skips a depth-0 entry. -/
theorem depthExceeded_zero (dep : Option Nat) : depthExceeded dep 0 = false := by
  cases dep with
  | none => rfl
  | some D => simp [depthExceeded]

/-- Either `pushLink` is the identity, or the link passed every check and was
enqueued. -/
theorem pushLink_shape (test : String → String → Bool) (req : CrawlRequest) (d : Nat)
    (s : CrawlState) (link : String) :
    pushLink test req d s link = s ∨
    (isValidUrl test req.excludePatterns s.baseUrl link = true ∧
     normalizeUrl link ∉ s.visited ∧ listStartsWith link.data req.url.data = true ∧
     pushLink test req d s link =
       { s with visited := s.visited.insert (normalizeUrl link),
                queue := s.queue ++ [(link, d + 1)],
                pushLog := s.pushLog ++ [link] }) := by
  unfold pushLink
  by_cases h1 : isValidUrl test req.excludePatterns s.baseUrl link = true ∧
      normalizeUrl link ∉ s.visited
  · rw [if_pos h1]
    by_cases h2 : listStartsWith link.data req.url.data = true
    · rw [if_pos h2]
      exact Or.inr ⟨h1.1, h1.2, h2, rfl⟩
    · rw [if_neg h2]
      exact Or.inl rfl
  · rw [if_neg h1]
    exact Or.inl rfl

/-- The link loop never touches base URL, results or the processed count, and
only extends the visited set, queue and push log. -/
theorem foldl_pushLink_facts (test : String → String → Bool) (req : CrawlRequest) (d : Nat)
    (links : List String) (s : CrawlState) :
    (links.foldl (pushLink test req d) s).baseUrl = s.baseUrl ∧
    (links.foldl (pushLink test req d) s).results = s.results ∧
    (links.foldl (pushLink test req d) s).pagesProcessed = s.pagesProcessed ∧
    s.visited ⊆ (links.foldl (pushLink test req d) s).visited ∧
    (∃ q2, (links.foldl (pushLink test req d) s).queue = s.queue ++ q2) ∧
    (∃ p2, (links.foldl (pushLink test req d) s).pushLog = s.pushLog ++ p2) := by
  induction links generalizing s with
  | nil => simp
  | cons l ls ih =>
    simp only [List.foldl_cons]
    rcases pushLink_shape test req d s l with h | ⟨_, _, _, h⟩
    · rw [h]
      exact ih s
    · rw [h]
      obtain ⟨b, r, pp, v, ⟨q2, hq2⟩, ⟨p2, hp2⟩⟩ := ih
        { s with visited := s.visited.insert (normalizeUrl l),
                 queue := s.queue ++ [(l, d + 1)], pushLog := s.pushLog ++ [l] }
      refine ⟨b, r, pp, ?_, ⟨(l, d + 1) :: q2, ?_⟩, ⟨l :: p2, ?_⟩⟩
      · intro x hx
        exact v (List.mem_insert_of_mem hx)
      · rw [hq2]; simp
      · rw [hp2]; simp

/-- `rebaseState` can change only the base URL of a state. -/
theorem rebaseState_parts {req : CrawlRequest} {out : RenderOk} {st st2 : CrawlState}
    (h : rebaseState req out st = some st2) :
    st2.visited = st.visited ∧ st2.queue = st.queue ∧ st2.results = st.results ∧
    st2.pagesProcessed = st.pagesProcessed ∧ st2.pushLog = st.pushLog := by
  unfold rebaseState at h
  split at h
  · split at h
    · split at h
      · exact absurd h (by simp)
      · split at h <;>
          (injection h with h; subst h; exact ⟨rfl, rfl, rfl, rfl, rfl⟩)
    · injection h with h
      subst h
      exact ⟨rfl, rfl, rfl, rfl, rfl⟩
  · injection h with h
    subst h
    exact ⟨rfl, rfl, rfl, rfl, rfl⟩

/-- In manifest mode no rebase ever happens. -/
theorem rebaseState_manifest {req : CrawlRequest} {out : RenderOk} {st : CrawlState}
    {us : List String} (hinc : req.includeUrls = some us) :
    rebaseState req out st = some st := by
  unfold rebaseState
  rw [if_neg]
  rintro ⟨_, h2⟩
  rw [hinc] at h2
  exact absurd h2 (by simp)

/-- After the first processed page no rebase ever happens. -/
theorem rebaseState_pos {req : CrawlRequest} {out : RenderOk} {st : CrawlState}
    (hpos : st.pagesProcessed ≠ 0) : rebaseState req out st = some st := by
  unfold rebaseState
  rw [if_neg]
  rintro ⟨h1, _⟩
  exact hpos h1

/-- A step on an empty queue does nothing. -/
theorem step_nil {test : String → String → Bool} {render : String → Option RenderOk}
    {req : CrawlRequest} {st : CrawlState} (h : st.queue = []) :
    step test render req st = st := by
  unfold step
  rw [h]

/-- A step on an entry beyond the depth limit only pops it. -/
theorem step_skip {test : String → String → Bool} {render : String → Option RenderOk}
    {req : CrawlRequest} {st : CrawlState} {url : String} {d : Nat} {rest : List (String × Nat)}
    (hq : st.queue = (url, d) :: rest) (hd : depthExceeded req.depth d = true) :
    step test render req st = { st with queue := rest } := by
  unfold step
  rw [hq]
  simp only [hd, if_true]

/-- A step whose render fails only pops the entry. -/
theorem step_fail {test : String → String → Bool} {render : String → Option RenderOk}
    {req : CrawlRequest} {st : CrawlState} {url : String} {d : Nat} {rest : List (String × Nat)}
    (hq : st.queue = (url, d) :: rest) (hd : depthExceeded req.depth d = false)
    (hr : render url = none) :
    step test render req st = { st with queue := rest } := by
  unfold step
  rw [hq]
  simp only [hd, Bool.false_eq_true, if_false, hr]

/-- A step whose rebase URL fails to parse only pops the entry. -/
theorem step_rebaseNone {test : String → String → Bool} {render : String → Option RenderOk}
    {req : CrawlRequest} {st : CrawlState} {url : String} {d : Nat} {rest : List (String × Nat)}
    {out : RenderOk} (hq : st.queue = (url, d) :: rest) (hd : depthExceeded req.depth d = false)
    (hr : render url = some out)
    (hb : rebaseState req out { st with queue := rest } = none) :
    step test render req st = { st with queue := rest } := by
  unfold step
  rw [hq]
  simp only [hd, Bool.false_eq_true, if_false, hr, hb]

/-- A successful step records the page and, outside manifest mode below the
depth limit, runs the link loop. -/
theorem step_ok {test : String → String → Bool} {render : String → Option RenderOk}
    {req : CrawlRequest} {st : CrawlState} {url : String} {d : Nat} {rest : List (String × Nat)}
    {out : RenderOk} {st2 : CrawlState}
    (hq : st.queue = (url, d) :: rest) (hd : depthExceeded req.depth d = false)
    (hr : render url = some out)
    (hb : rebaseState req out { st with queue := rest } = some st2) :
    step test render req st =
      (if req.includeUrls = none ∧ depthAllowsLinks req.depth d = true then
        out.links.foldl (pushLink test req d)
          { st2 with results := st2.results ++ [⟨url, out.title, out.content, out.links, d⟩],
                     pagesProcessed := st2.pagesProcessed + 1 }
      else
        { st2 with results := st2.results ++ [⟨url, out.title, out.content, out.links, d⟩],
                   pagesProcessed := st2.pagesProcessed + 1 }) := by
  unfold step
  rw [hq]
  simp only [hd, Bool.false_eq_true, if_false, hr, hb]

/-- Unrolling the loop while the guard holds. -/
theorem crawlLoop_succ {test : String → String → Bool} {render : String → Option RenderOk}
    {req : CrawlRequest} {st : CrawlState} {fuel : Nat}
    (hq : st.queue ≠ []) (hp : st.pagesProcessed < maxPagesOf req) :
    crawlLoop test render req (fuel + 1) st =
      crawlLoop test render req fuel (step test render req st) := by
  simp only [crawlLoop]
  rw [if_pos ⟨hq, hp⟩]

/-- The loop stops when the guard fails. -/
theorem crawlLoop_stop {test : String → String → Bool} {render : String → Option RenderOk}
    {req : CrawlRequest} {st : CrawlState} {fuel : Nat}
    (h : st.queue = [] ∨ maxPagesOf req ≤ st.pagesProcessed) :
    crawlLoop test render req fuel st = st := by
  cases fuel with
  | zero => rfl
  | succ n =>
    simp only [crawlLoop]
    rw [if_neg]
    rintro ⟨h1, h2⟩
    rcases h with h | h
    · exact h1 h
    · exact absurd h2 (by omega)

/-- Guarded invariants are preserved by the whole loop. -/
theorem crawlLoop_inv {test : String → String → Bool} {render : String → Option RenderOk}
    {req : CrawlRequest} (P : CrawlState → Prop)
    (hstep : ∀ s, s.queue ≠ [] → s.pagesProcessed < maxPagesOf req →
      P s → P (step test render req s)) :
    ∀ fuel st, P st → P (crawlLoop test render req fuel st) := by
  intro fuel
  induction fuel with
  | zero => intro st h; exact h
  | succ n ih =>
    intro st h
    simp only [crawlLoop]
    by_cases hg : st.queue ≠ [] ∧ st.pagesProcessed < maxPagesOf req
    · rw [if_pos hg]
      exact ih _ (hstep st hg.1 hg.2 h)
    · rw [if_neg hg]
      exact h

/-- Case eliminator for `step`: a step either does nothing (empty queue),
only pops the entry (depth skip, render failure, rebase parse failure), or
records the page and possibly runs the link loop. -/
theorem step_elim {test : String → String → Bool} {render : String → Option RenderOk}
    {req : CrawlRequest} {st : CrawlState} (P : CrawlState → Prop)
    (hnil : st.queue = [] → P st)
    (hpop : ∀ url d rest, st.queue = (url, d) :: rest → P { st with queue := rest })
    (hokk : ∀ url d rest out st2, st.queue = (url, d) :: rest →
        depthExceeded req.depth d = false → render url = some out →
        rebaseState req out { st with queue := rest } = some st2 →
        P (if req.includeUrls = none ∧ depthAllowsLinks req.depth d = true then
             out.links.foldl (pushLink test req d)
               { st2 with results := st2.results ++ [⟨url, out.title, out.content, out.links, d⟩],
                          pagesProcessed := st2.pagesProcessed + 1 }
           else
             { st2 with results := st2.results ++ [⟨url, out.title, out.content, out.links, d⟩],
                        pagesProcessed := st2.pagesProcessed + 1 })) :
    P (step test render req st) := by
  cases hq : st.queue with
  | nil => rw [step_nil hq]; exact hnil hq
  | cons e rest =>
    obtain ⟨url, d⟩ := e
    by_cases hd : depthExceeded req.depth d = true
    · rw [step_skip hq hd]
      exact hpop url d rest hq
    · have hd' : depthExceeded req.depth d = false := by simpa using hd
      cases hr : render url with
      | none =>
        rw [step_fail hq hd' hr]
        exact hpop url d rest hq
      | some out =>
        cases hb : rebaseState req out { st with queue := rest } with
        | none =>
          rw [step_rebaseNone hq hd' hr hb]
          exact hpop url d rest hq
        | some st2 =>
          rw [step_ok hq hd' hr hb]
          exact hokk url d rest out st2 hq hd' hr hb

/-- The visited set never shrinks across a step. -/
theorem step_visited_sub (test : String → String → Bool) (render : String → Option RenderOk)
    (req : CrawlRequest) (st : CrawlState) :
    st.visited ⊆ (step test render req st).visited := by
  apply step_elim (P := fun s => st.visited ⊆ s.visited)
  · intro _; exact fun x hx => hx
  · intro url d rest hq; exact fun x hx => hx
  · intro url d rest out st2 hq hd hr hb
    obtain ⟨hv, _, _, _, _⟩ := rebaseState_parts hb
    by_cases hgate : req.includeUrls = none ∧ depthAllowsLinks req.depth d = true
    · rw [if_pos hgate]
      obtain ⟨_, _, _, hsub, _, _⟩ := foldl_pushLink_facts test req d out.links
        { st2 with results := st2.results ++ [⟨url, out.title, out.content, out.links, d⟩],
                   pagesProcessed := st2.pagesProcessed + 1 }
      intro x hx
      apply hsub
      show x ∈ st2.visited
      rw [hv]
      exact hx
    · rw [if_neg hgate]
      intro x hx
      show x ∈ st2.visited
      rw [hv]
      exact hx

/-- Results stay in lockstep with the processed count, which grows by at most
one per step. -/
theorem step_bounds (test : String → String → Bool) (render : String → Option RenderOk)
    (req : CrawlRequest) (st : CrawlState) (h : st.results.length = st.pagesProcessed) :
    (step test render req st).results.length = (step test render req st).pagesProcessed ∧
    (step test render req st).pagesProcessed ≤ st.pagesProcessed + 1 := by
  apply step_elim
    (P := fun s => s.results.length = s.pagesProcessed ∧ s.pagesProcessed ≤ st.pagesProcessed + 1)
  · intro _
    exact ⟨h, Nat.le_succ _⟩
  · intro url d rest hq
    exact ⟨h, Nat.le_succ _⟩
  · intro url d rest out st2 hq hd hr hb
    obtain ⟨_, _, hres, hproc, _⟩ := rebaseState_parts hb
    have e1 : st2.results = st.results := hres
    have e2 : st2.pagesProcessed = st.pagesProcessed := hproc
    have hgoal : (st2.results ++ [(⟨url, out.title, out.content, out.links, d⟩ : PageResult)]).length
        = st2.pagesProcessed + 1 ∧ st2.pagesProcessed + 1 ≤ st.pagesProcessed + 1 := by
      rw [e1, e2, List.length_append, h]
      exact ⟨rfl, le_refl _⟩
    by_cases hgate : req.includeUrls = none ∧ depthAllowsLinks req.depth d = true
    · rw [if_pos hgate]
      obtain ⟨_, hr2, hp2, _, _, _⟩ := foldl_pushLink_facts test req d out.links
        { st2 with results := st2.results ++ [⟨url, out.title, out.content, out.links, d⟩],
                   pagesProcessed := st2.pagesProcessed + 1 }
      refine ⟨?_, ?_⟩
      · rw [hr2, hp2]
        exact hgoal.1
      · rw [hp2]
        exact hgoal.2
    · rw [if_neg hgate]
      exact hgoal

/-- The depth gate bounds every recorded page's depth. -/
theorem depthExceeded_false_le {D d : Nat} (h : depthExceeded (some D) d = false) : d ≤ D := by
  unfold depthExceeded at h
  simp only [decide_eq_false_iff_not, Nat.not_lt] at h
  exact h

/-- Every page recorded by a step obeys the depth limit. -/
theorem step_depthBound (test : String → String → Bool) (render : String → Option RenderOk)
    (req : CrawlRequest) (st : CrawlState) {D : Nat} (hD : req.depth = some D)
    (h : ∀ r ∈ st.results, r.depth ≤ D) :
    ∀ r ∈ (step test render req st).results, r.depth ≤ D := by
  apply step_elim (P := fun s => ∀ r ∈ s.results, r.depth ≤ D)
  · intro _; exact h
  · intro url d rest hq; exact h
  · intro url d rest out st2 hq hd hr hb
    obtain ⟨_, _, hres, _, _⟩ := rebaseState_parts hb
    have hd2 : d ≤ D := depthExceeded_false_le (hD ▸ hd)
    have hnew : ∀ r ∈ st2.results ++ [(⟨url, out.title, out.content, out.links, d⟩ : PageResult)],
        r.depth ≤ D := by
      intro r hrm
      rcases List.mem_append.mp hrm with hrm | hrm
      · exact h r (by rw [hres] at hrm; exact hrm)
      · simp only [List.mem_singleton] at hrm
        subst hrm
        exact hd2
    by_cases hgate : req.includeUrls = none ∧ depthAllowsLinks req.depth d = true
    · rw [if_pos hgate]
      obtain ⟨_, hr2, _, _, _, _⟩ := foldl_pushLink_facts test req d out.links
        { st2 with results := st2.results ++ [⟨url, out.title, out.content, out.links, d⟩],
                   pagesProcessed := st2.pagesProcessed + 1 }
      rw [hr2]
      exact hnew
    · rw [if_neg hgate]
      exact hnew

/-! ## Manifest-mode lemmas -/

/-- In manifest mode a step never touches the visited set or the push log and
only pops the queue; the processed count grows by at most one. -/
theorem step_manifest {test : String → String → Bool} {render : String → Option RenderOk}
    {req : CrawlRequest} {st : CrawlState} {us : List String}
    (hinc : req.includeUrls = some us) :
    (step test render req st).visited = st.visited ∧
    (step test render req st).pushLog = st.pushLog ∧
    (step test render req st).queue = st.queue.drop 1 ∧
    st.pagesProcessed ≤ (step test render req st).pagesProcessed ∧
    (step test render req st).pagesProcessed ≤ st.pagesProcessed + 1 := by
  apply step_elim (P := fun s => s.visited = st.visited ∧ s.pushLog = st.pushLog ∧
    s.queue = st.queue.drop 1 ∧ st.pagesProcessed ≤ s.pagesProcessed ∧
    s.pagesProcessed ≤ st.pagesProcessed + 1)
  · intro hq
    rw [hq]
    exact ⟨rfl, rfl, rfl, le_refl _, Nat.le_succ _⟩
  · intro url d rest hq
    rw [hq]
    exact ⟨rfl, rfl, rfl, le_refl _, Nat.le_succ _⟩
  · intro url d rest out st2 hq hd hr hb
    obtain ⟨hv, hqu, _, hproc, hpl⟩ := rebaseState_parts hb
    rw [if_neg]
    · refine ⟨hv, hpl, ?_, ?_, ?_⟩
      · show st2.queue = st.queue.drop 1
        rw [hqu, hq]
        rfl
      · show st.pagesProcessed ≤ st2.pagesProcessed + 1
        have : st2.pagesProcessed = st.pagesProcessed := hproc
        omega
      · show st2.pagesProcessed + 1 ≤ st.pagesProcessed + 1
        have : st2.pagesProcessed = st.pagesProcessed := hproc
        omega
    · rintro ⟨h1, _⟩
      rw [hinc] at h1
      exact absurd h1 (by simp)

/-- A manifest-mode step on a depth-0 entry with a successful render records
exactly that page. -/
theorem step_manifest_ok {test : String → String → Bool} {render : String → Option RenderOk}
    {req : CrawlRequest} {st : CrawlState} {us : List String} {url : String}
    {rest : List (String × Nat)} {out : RenderOk}
    (hinc : req.includeUrls = some us) (hq : st.queue = (url, 0) :: rest)
    (hr : render url = some out) :
    step test render req st =
      { st with queue := rest,
                results := st.results ++ [⟨url, out.title, out.content, out.links, 0⟩],
                pagesProcessed := st.pagesProcessed + 1 } := by
  have hd : depthExceeded req.depth 0 = false := depthExceeded_zero _
  have hb : rebaseState req out { st with queue := rest } = some { st with queue := rest } :=
    rebaseState_manifest hinc
  rw [step_ok hq hd hr hb]
  rw [if_neg]
  rintro ⟨h1, _⟩
  rw [hinc] at h1
  exact absurd h1 (by simp)

/-- In manifest mode the whole run keeps the visited set and the push log
intact and only consumes the queue. -/
theorem crawlLoop_manifest_inv {test : String → String → Bool} {render : String → Option RenderOk}
    {req : CrawlRequest} {us : List String} (hinc : req.includeUrls = some us)
    (fuel : Nat) (st : CrawlState) :
    (crawlLoop test render req fuel st).visited = st.visited ∧
    (crawlLoop test render req fuel st).pushLog = st.pushLog ∧
    ∃ k, (crawlLoop test render req fuel st).queue = st.queue.drop k := by
  refine @crawlLoop_inv test render req
    (fun s => s.visited = st.visited ∧ s.pushLog = st.pushLog ∧
      ∃ k, s.queue = st.queue.drop k) ?_ fuel st ⟨rfl, rfl, 0, rfl⟩
  intro s _ _ hP
  obtain ⟨h1, h2, k, h3⟩ := hP
  obtain ⟨m1, m2, m3, _, _⟩ := @step_manifest test render req s us hinc
  refine ⟨m1.trans h1, m2.trans h2, k + 1, ?_⟩
  rw [m3, h3, List.drop_drop]

/-- In manifest mode, with `maxPages` at least the queue plus what was already
processed, the loop drains the queue completely. -/
theorem crawlLoop_manifest_drain {test : String → String → Bool} {render : String → Option RenderOk}
    {req : CrawlRequest} {us : List String} (hinc : req.includeUrls = some us) :
    ∀ (fuel : Nat) (st : CrawlState), st.queue.length ≤ fuel →
      st.pagesProcessed + st.queue.length ≤ maxPagesOf req →
      (crawlLoop test render req fuel st).queue = [] := by
  intro fuel
  induction fuel with
  | zero =>
    intro st hlen _
    have : st.queue = [] := List.eq_nil_of_length_eq_zero (Nat.le_zero.mp hlen)
    rw [crawlLoop_stop (Or.inl this)]
    exact this
  | succ n ih =>
    intro st hlen hbound
    cases hq : st.queue with
    | nil =>
      rw [crawlLoop_stop (Or.inl hq)]
      exact hq
    | cons e rest =>
      have hqne : st.queue ≠ [] := by rw [hq]; simp
      have hlen2 : st.queue.length = rest.length + 1 := by rw [hq]; rfl
      have hproc : st.pagesProcessed < maxPagesOf req := by omega
      rw [crawlLoop_succ hqne hproc]
      obtain ⟨_, _, m3, _, m5⟩ := @step_manifest test render req st us hinc
      have hq1 : (step test render req st).queue = rest := by
        rw [m3, hq]
        rfl
      apply ih
      · rw [hq1]
        omega
      · rw [hq1]
        omega

/-- In manifest mode with depth-0 entries and successful renders, the run
records exactly the queued URLs in order. -/
theorem crawlLoop_manifest_results {test : String → String → Bool}
    {render : String → Option RenderOk} {req : CrawlRequest} {us : List String}
    (hinc : req.includeUrls = some us) :
    ∀ (pend : List String) (st : CrawlState), st.queue = pend.map (fun u => (u, 0)) →
      (∀ u ∈ pend, render u ≠ none) →
      st.pagesProcessed + pend.length ≤ maxPagesOf req →
      (crawlLoop test render req pend.length st).results.map PageResult.url =
        st.results.map PageResult.url ++ pend := by
  intro pend
  induction pend with
  | nil =>
    intro st hq _ _
    have hqe : st.queue = [] := by rw [hq]; rfl
    rw [crawlLoop_stop (Or.inl hqe)]
    simp
  | cons u pend ih =>
    intro st hq hren hbound
    have hqc : st.queue = (u, 0) :: pend.map (fun x => (x, 0)) := by rw [hq]; rfl
    have hqne : st.queue ≠ [] := by rw [hqc]; simp
    have hproc : st.pagesProcessed < maxPagesOf req := by
      have : (u :: pend).length = pend.length + 1 := rfl
      omega
    have hfuel : (u :: pend).length = pend.length + 1 := rfl
    rw [hfuel, crawlLoop_succ hqne hproc]
    cases hr : render u with
    | none => exact absurd hr (hren u (List.mem_cons_self u pend))
    | some out =>
      rw [step_manifest_ok hinc hqc hr]
      have hres := ih
        { st with queue := pend.map (fun x => (x, 0)),
                  results := st.results ++ [⟨u, out.title, out.content, out.links, 0⟩],
                  pagesProcessed := st.pagesProcessed + 1 } rfl
        (fun x hx => hren x (List.mem_cons_of_mem u hx))
        (by
          show st.pagesProcessed + 1 + pend.length ≤ maxPagesOf req
          have hl : (u :: pend).length = pend.length + 1 := rfl
          omega)
      rw [hres]
      simp

/-! ## The dedup invariant -/

/-- The link loop preserves the invariant that the push log is duplicate-free
and every pushed URL's normalization is visited. -/
theorem foldl_pushLink_inv {test : String → String → Bool} {req : CrawlRequest} {d : Nat}
    (links : List String) (s : CrawlState)
    (h1 : s.pushLog.Nodup) (h2 : ∀ u ∈ s.pushLog, normalizeUrl u ∈ s.visited) :
    (links.foldl (pushLink test req d) s).pushLog.Nodup ∧
    ∀ u ∈ (links.foldl (pushLink test req d) s).pushLog,
      normalizeUrl u ∈ (links.foldl (pushLink test req d) s).visited := by
  induction links generalizing s with
  | nil => exact ⟨h1, h2⟩
  | cons l ls ih =>
    simp only [List.foldl_cons]
    rcases pushLink_shape test req d s l with h | ⟨_, hnv, _, h⟩
    · rw [h]
      exact ih s h1 h2
    · rw [h]
      apply ih
      · rw [List.nodup_append]
        refine ⟨h1, List.nodup_singleton l, ?_⟩
        intro x hx hxl
        simp only [List.mem_singleton] at hxl
        subst hxl
        exact hnv (h2 x hx)
      · intro u hu
        rcases List.mem_append.mp hu with hu | hu
        · exact List.mem_insert_of_mem (h2 u hu)
        · simp only [List.mem_singleton] at hu
          subst hu
          exact List.mem_insert_self _ _

/-- A step preserves the dedup invariant. -/
theorem step_pushInv {test : String → String → Bool} {render : String → Option RenderOk}
    {req : CrawlRequest} {st : CrawlState}
    (h1 : st.pushLog.Nodup) (h2 : ∀ u ∈ st.pushLog, normalizeUrl u ∈ st.visited) :
    (step test render req st).pushLog.Nodup ∧
    ∀ u ∈ (step test render req st).pushLog,
      normalizeUrl u ∈ (step test render req st).visited := by
  apply step_elim (P := fun s => s.pushLog.Nodup ∧ ∀ u ∈ s.pushLog, normalizeUrl u ∈ s.visited)
  · intro _; exact ⟨h1, h2⟩
  · intro url d rest hq; exact ⟨h1, h2⟩
  · intro url d rest out st2 hq hd hr hb
    obtain ⟨hv, _, _, _, hpl⟩ := rebaseState_parts hb
    have g1 : st2.pushLog.Nodup := by rw [hpl]; exact h1
    have g2 : ∀ u ∈ st2.pushLog, normalizeUrl u ∈ st2.visited := by
      intro u hu
      rw [hv]
      exact h2 u (by rw [hpl] at hu; exact hu)
    by_cases hgate : req.includeUrls = none ∧ depthAllowsLinks req.depth d = true
    · rw [if_pos hgate]
      exact foldl_pushLink_inv out.links _ g1 g2
    · rw [if_neg hgate]
      exact ⟨g1, g2⟩

/-! ## No expansion after a cross-origin rebase -/

/-- What a successful `isValidUrl` guarantees: the URL parses, its origin is
the base, no exclude pattern matches, and the path ends in no filtered
extension. -/
theorem isValidUrl_elim {test : String → String → Bool} {pats : List String}
    {base url : String} (h : isValidUrl test pats base url = true) :
    ∃ u, parseUrl url.data = some u ∧ originS u = base ∧
      (∀ pat ∈ pats, test pat url = false) ∧
      (∀ ext ∈ extensionsList, List.isSuffixOf ext.data (toLowerL u.path) = false) := by
  unfold isValidUrl at h
  split at h
  · exact absurd h (by simp)
  · split at h
    · exact absurd h (by simp)
    · rename_i u hu
      split at h
      · exact absurd h (by simp)
      · rename_i ho
        split at h
        · exact absurd h (by simp)
        · rename_i ha
          split at h
          · exact absurd h (by simp)
          · rename_i hx
            refine ⟨u, hu, not_not.mp ho, ?_, ?_⟩
            · intro pat hpat
              by_contra hc
              exact ha (List.any_eq_true.mpr ⟨pat, hpat, by simpa using hc⟩)
            · intro ext hext
              by_contra hc
              exact hx (List.any_eq_true.mpr ⟨ext, hext, by simpa using hc⟩)

/-- A parse failure makes `isValidUrl` false. -/
theorem isValidUrl_parse_fail {test : String → String → Bool} {pats : List String}
    {base url : String} (h : parseUrl url.data = none) :
    isValidUrl test pats base url = false := by
  unfold isValidUrl
  split
  · rfl
  · rw [h]

/-- A link that passes `isValidUrl` against base `B` and starts with the seed
URL string forces the seed to be a prefix of `B` — unless the seed's own
origin is already `B`. -/
theorem enqueue_seed_constraint {test : String → String → Bool} {pats : List String}
    {base link requrl : String} {p : Url}
    (hv : isValidUrl test pats base link = true)
    (hsw : listStartsWith link.data requrl.data = true)
    (hreq : parseUrl requrl.data = some p)
    (hne : originS p ≠ base) :
    IsPre requrl.data base.data := by
  obtain ⟨q, hq, hqo, _, _⟩ := isValidUrl_elim hv
  have hbase : base.data = originL q := by rw [← hqo]; rfl
  obtain ⟨r, hlr, hr⟩ := parseUrl_decomp hq
  have hqwf := parseUrl_wf hq
  have hpre1 : IsPre requrl.data link.data := listStartsWith_iff.mp hsw
  have hpre2 : IsPre (originL q) link.data := ⟨r, hlr.symm⟩
  rcases isPre_total hpre1 hpre2 with hcase | hcase
  · rw [hbase]
    exact hcase
  · exfalso
    rcases hcase with ⟨r', hr'⟩
    rcases hpre1 with ⟨t, ht⟩
    have hrr : r = r' ++ t := by
      have hcat : originL q ++ (r' ++ t) = originL q ++ r := by
        rw [← List.append_assoc, hr', ht, hlr]
      exact (List.append_cancel_left hcat).symm
    have hsh : ∀ u2 : Url, parseUrl requrl.data = some u2 →
        u2.scheme = q.scheme ∧ u2.host = q.host := by
      intro u2 hu2
      cases hr'e : r' with
      | nil =>
        apply parseUrl_origin_head hqwf (Or.inl rfl)
        rw [← hu2]
        congr 1
        rw [← hr', hr'e]
      | cons c r2 =>
        have hcdelim : notDelim c = false := by
          rcases hr with hre | ⟨c2, r3, hre, hd2⟩
          · rw [hrr, hr'e] at hre
            simp at hre
          · rw [hrr, hr'e] at hre
            simp only [List.cons_append, List.cons.injEq] at hre
            rw [hre.1]
            exact hd2
        apply parseUrl_origin_head hqwf (Or.inr ⟨c, r2, rfl, hcdelim⟩)
        rw [← hu2]
        congr 1
        rw [← hr', hr'e]
    obtain ⟨hsch, hhost⟩ := hsh p hreq
    apply hne
    have hpq : originS p = originS q := by
      unfold originS originL
      rw [hsch, hhost]
    rw [hpq, hqo]

/-- After a rebase away from the seed's origin, when the seed URL is not a
string prefix of the new base, no link ever passes the push gate. -/
theorem pushLink_noop {test : String → String → Bool} {req : CrawlRequest} {d : Nat}
    {s : CrawlState} {p : Url} (link : String)
    (hreq : parseUrl req.url.data = some p)
    (hne : originS p ≠ s.baseUrl)
    (hnp : ¬ IsPre req.url.data s.baseUrl.data) :
    pushLink test req d s link = s := by
  rcases pushLink_shape test req d s link with h | ⟨hv, _, hsw, _⟩
  · exact h
  · exact absurd (enqueue_seed_constraint hv hsw hreq hne) hnp

/-- Whole-link-loop version of `pushLink_noop`. -/
theorem foldl_pushLink_noop {test : String → String → Bool} {req : CrawlRequest} {d : Nat}
    {s : CrawlState} {p : Url} (links : List String)
    (hreq : parseUrl req.url.data = some p)
    (hne : originS p ≠ s.baseUrl)
    (hnp : ¬ IsPre req.url.data s.baseUrl.data) :
    links.foldl (pushLink test req d) s = s := by
  induction links with
  | nil => rfl
  | cons l ls ih =>
    simp only [List.foldl_cons]
    rw [pushLink_noop l hreq hne hnp]
    exact ih

/-- After the first processed page, with the base rebased away from the
seed's origin and the seed not a prefix of it, a step changes nothing except
popping the queue and recording the popped page. -/
theorem step_no_expansion {test : String → String → Bool} {render : String → Option RenderOk}
    {req : CrawlRequest} {st : CrawlState} {p : Url}
    (hproc : 1 ≤ st.pagesProcessed)
    (hreq : parseUrl req.url.data = some p)
    (hne : originS p ≠ st.baseUrl)
    (hnp : ¬ IsPre req.url.data st.baseUrl.data) :
    (step test render req st).baseUrl = st.baseUrl ∧
    (step test render req st).visited = st.visited ∧
    (step test render req st).pushLog = st.pushLog ∧
    (step test render req st).queue = st.queue.drop 1 ∧
    1 ≤ (step test render req st).pagesProcessed ∧
    (step test render req st).results.length + (step test render req st).queue.length ≤
      st.results.length + st.queue.length := by
  cases hq : st.queue with
  | nil =>
    rw [step_nil hq, hq]
    exact ⟨rfl, rfl, rfl, rfl, hproc, le_refl _⟩

  | cons e rest =>
    obtain ⟨url, d⟩ := e
    have hqlen : st.queue.length = rest.length + 1 := by rw [hq]; rfl
    by_cases hd : depthExceeded req.depth d = true
    · rw [step_skip hq hd]
      refine ⟨rfl, rfl, rfl, rfl, hproc, ?_⟩
      show st.results.length + rest.length ≤ st.results.length + ((url, d) :: rest).length
      rw [List.length_cons]
      omega
    · have hd' : depthExceeded req.depth d = false := by simpa using hd
      cases hr : render url with
      | none =>
        rw [step_fail hq hd' hr]
        refine ⟨rfl, rfl, rfl, rfl, hproc, ?_⟩
        show st.results.length + rest.length ≤ st.results.length + ((url, d) :: rest).length
        rw [List.length_cons]
        omega
      | some out =>
        have hpos : ({ st with queue := rest } : CrawlState).pagesProcessed ≠ 0 := by
          show st.pagesProcessed ≠ 0
          omega
        have hb : rebaseState req out { st with queue := rest } =
            some { st with queue := rest } := rebaseState_pos hpos
        rw [step_ok hq hd' hr hb]
        have hne2 : originS p ≠
            ({ { st with queue := rest } with
                results := ({ st with queue := rest } : CrawlState).results ++
                  [⟨url, out.title, out.content, out.links, d⟩],
                pagesProcessed :=
                  ({ st with queue := rest } : CrawlState).pagesProcessed + 1 } :
              CrawlState).baseUrl := hne
        have hnp2 : ¬ IsPre req.url.data
            (({ { st with queue := rest } with
                results := ({ st with queue := rest } : CrawlState).results ++
                  [⟨url, out.title, out.content, out.links, d⟩],
                pagesProcessed :=
                  ({ st with queue := rest } : CrawlState).pagesProcessed + 1 } :
              CrawlState).baseUrl).data := hnp
        by_cases hgate : req.includeUrls = none ∧ depthAllowsLinks req.depth d = true
        · rw [if_pos hgate]
          rw [foldl_pushLink_noop out.links hreq hne2 hnp2]
          refine ⟨rfl, rfl, rfl, rfl, ?_, ?_⟩
          · show 1 ≤ st.pagesProcessed + 1
            omega
          · show (st.results ++
                [(⟨url, out.title, out.content, out.links, d⟩ : PageResult)]).length +
                rest.length ≤ st.results.length + ((url, d) :: rest).length
            simp only [List.length_append, List.length_cons, List.length_nil]
            omega
        · rw [if_neg hgate]
          refine ⟨rfl, rfl, rfl, rfl, ?_, ?_⟩
          · show 1 ≤ st.pagesProcessed + 1
            omega
          · show (st.results ++
                [(⟨url, out.title, out.content, out.links, d⟩ : PageResult)]).length +
                rest.length ≤ st.results.length + ((url, d) :: rest).length
            simp only [List.length_append, List.length_cons, List.length_nil]
            omega

/-- After a rebase away from the seed's origin, when the seed URL is not a
string prefix of the new base, the whole remaining run enqueues nothing, the
visited set and push log stay frozen, the queue only shrinks, and at most the
already-queued pages get processed. -/
theorem crawlLoop_no_expansion {test : String → String → Bool} {render : String → Option RenderOk}
    {req : CrawlRequest} {st : CrawlState} {p : Url}
    (hproc : 1 ≤ st.pagesProcessed)
    (hreq : parseUrl req.url.data = some p)
    (hne : originS p ≠ st.baseUrl)
    (hnp : ¬ IsPre req.url.data st.baseUrl.data) (fuel : Nat) :
    (crawlLoop test render req fuel st).baseUrl = st.baseUrl ∧
    1 ≤ (crawlLoop test render req fuel st).pagesProcessed ∧
    (crawlLoop test render req fuel st).visited = st.visited ∧
    (crawlLoop test render req fuel st).pushLog = st.pushLog ∧
    (∃ k, (crawlLoop test render req fuel st).queue = st.queue.drop k) ∧
    (crawlLoop test render req fuel st).results.length +
      (crawlLoop test render req fuel st).queue.length ≤
      st.results.length + st.queue.length := by
  refine @crawlLoop_inv test render req
    (fun s => s.baseUrl = st.baseUrl ∧ 1 ≤ s.pagesProcessed ∧ s.visited = st.visited ∧
      s.pushLog = st.pushLog ∧ (∃ k, s.queue = st.queue.drop k) ∧
      s.results.length + s.queue.length ≤ st.results.length + st.queue.length)
    ?_ fuel st ⟨rfl, hproc, rfl, rfl, ⟨0, rfl⟩, le_refl _⟩
  intro s _ _ hP
  obtain ⟨hb, hp1, hv, hl, ⟨k, hk⟩, hlen⟩ := hP
  have hne' : originS p ≠ s.baseUrl := by rw [hb]; exact hne
  have hnp' : ¬ IsPre req.url.data s.baseUrl.data := by rw [hb]; exact hnp
  obtain ⟨e1, e2, e3, e4, e5, e6⟩ := step_no_expansion hp1 hreq hne' hnp'
  refine ⟨e1.trans hb, e5, e2.trans hv, e3.trans hl, ⟨k + 1, ?_⟩, le_trans e6 hlen⟩
  rw [e4, hk, List.drop_drop]

/-! ## Initial-state lemmas -/

/-- Initial states start with no results and no processed pages. -/
theorem crawlInit_zero {req : CrawlRequest} {st0 : CrawlState}
    (h : crawlInit req = some st0) :
    st0.results = [] ∧ st0.pagesProcessed = 0 := by
  unfold crawlInit at h
  split at h
  · exact absurd h (by simp)
  · split at h
    · split at h <;> (injection h with h; subst h; exact ⟨rfl, rfl⟩)
    · injection h with h
      subst h
      exact ⟨rfl, rfl⟩

/-- Manifest-mode seeding: each entry queued at depth 0, its normalization
pre-marked visited, all entries push-logged. -/
theorem crawlInit_manifest {req : CrawlRequest} {us : List String} {st0 : CrawlState}
    (hinc : req.includeUrls = some us) (hne : us ≠ [])
    (h : crawlInit req = some st0) :
    st0.queue = us.map (fun u => (u, 0)) ∧
    st0.visited = us.foldl (fun v x => v.insert (normalizeUrl x)) [] ∧
    st0.results = [] ∧ st0.pagesProcessed = 0 ∧ st0.pushLog = us := by
  unfold crawlInit at h
  split at h
  · exact absurd h (by simp)
  · split at h
    · rename_i us' heq
      rw [hinc] at heq
      injection heq with heq
      subst heq
      rw [if_pos hne] at h
      injection h with h
      subst h
      exact ⟨rfl, rfl, rfl, rfl, rfl⟩
    · rename_i heq
      rw [hinc] at heq
      exact absurd heq (by simp)

/-- Non-manifest seeding: the single seed queued at depth 0, its
normalization visited, and the seed push-logged. -/
theorem crawlInit_seed {req : CrawlRequest} {st0 : CrawlState}
    (hinc : req.includeUrls = none) (h : crawlInit req = some st0) :
    st0.visited = [normalizeUrl req.url] ∧ st0.queue = [(req.url, 0)] ∧
    st0.pushLog = [req.url] := by
  unfold crawlInit at h
  split at h
  · exact absurd h (by simp)
  · split at h
    · rename_i us' heq
      rw [hinc] at heq
      exact absurd heq (by simp)
    · injection h with h
      subst h
      exact ⟨rfl, rfl, rfl⟩

/-- Membership in the manifest-seeded visited set. -/
theorem mem_foldl_insert (us : List String) (acc : List String) (v : String) :
    v ∈ us.foldl (fun a x => a.insert (normalizeUrl x)) acc ↔
      v ∈ acc ∨ ∃ u ∈ us, v = normalizeUrl u := by
  induction us generalizing acc with
  | nil => simp
  | cons u us ih =>
    simp only [List.foldl_cons]
    rw [ih]
    simp only [List.mem_insert_iff, List.mem_cons]
    constructor
    · rintro ((h | h) | ⟨x, hx, hv⟩)
      · exact Or.inr ⟨u, Or.inl rfl, h⟩
      · exact Or.inl h
      · exact Or.inr ⟨x, Or.inr hx, hv⟩
    · rintro (h | ⟨x, hx | hx, hv⟩)
      · exact Or.inl (Or.inr h)
      · exact Or.inl (Or.inl (by rw [hv, hx]))
      · exact Or.inr ⟨x, hx, hv⟩

/-! ## Discovery lemmas -/

/-- A fetch or parse failure yields an empty list for that sitemap node. -/
theorem fetchSitemap_failure {hx : String → Option SiteXml} {url : String}
    (h : hx url = none) : ∀ fuel, fetchSitemap hx fuel url = [] := by
  intro fuel
  cases fuel with
  | zero => rfl
  | succ n => simp only [fetchSitemap, h]

/-- A sitemap index resolves to the concatenation of its children's results,
skipping entries with a missing or empty `loc`. -/
theorem fetchSitemap_index {hx : String → Option SiteXml} {url : String}
    {children : List (Option String)} (fuel : Nat)
    (h : hx url = some (.index children)) :
    fetchSitemap hx (fuel + 1) url = children.flatMap (fun sm =>
      match sm with
      | some loc => if loc = "" then [] else fetchSitemap hx fuel loc
      | none => []) := by
  simp only [fetchSitemap, h]

/-- A urlset resolves to its non-empty `loc` entries. -/
theorem fetchSitemap_urlset {hx : String → Option SiteXml} {url : String}
    {entries : List (Option String)} (fuel : Nat)
    (h : hx url = some (.urlset entries)) :
    fetchSitemap hx (fuel + 1) url = entries.filterMap (fun e =>
      match e with
      | some loc => if loc = "" then none else some loc
      | none => none) := by
  simp only [fetchSitemap, h]

/-- The common-path probe stops at the first location yielding URLs. -/
theorem probeCommon_cases (hx : String → Option SiteXml) (fuel : Nat) (base : String) :
    (fetchSitemap hx fuel (base ++ "/sitemap.xml") ≠ [] →
      probeCommon hx fuel base = fetchSitemap hx fuel (base ++ "/sitemap.xml")) ∧
    (fetchSitemap hx fuel (base ++ "/sitemap.xml") = [] →
      fetchSitemap hx fuel (base ++ "/sitemap_index.xml") ≠ [] →
      probeCommon hx fuel base = fetchSitemap hx fuel (base ++ "/sitemap_index.xml")) ∧
    (fetchSitemap hx fuel (base ++ "/sitemap.xml") = [] →
      fetchSitemap hx fuel (base ++ "/sitemap_index.xml") = [] →
      probeCommon hx fuel base = fetchSitemap hx fuel (base ++ "/wp-sitemap.xml")) := by
  refine ⟨?_, ?_, ?_⟩
  · intro h1
    unfold probeCommon
    rw [if_pos h1]
  · intro h1 h2
    unfold probeCommon
    rw [if_neg (by simp [h1]), if_pos h2]
  · intro h1 h2
    unfold probeCommon
    rw [if_neg (by simp [h1]), if_neg (by simp [h2])]

/-- Full behaviour of `getUrlsFromRobotsTxt` over the robots fetch outcome. -/
theorem getUrlsFromRobotsTxt_cases (htext : String → Option (Nat × String))
    (hx : String → Option SiteXml) (fuel : Nat) (base : String) :
    (htext (base ++ "/robots.txt") = none → getUrlsFromRobotsTxt htext hx fuel base = []) ∧
    (∀ status body, htext (base ++ "/robots.txt") = some (status, body) → status ≠ 200 →
      getUrlsFromRobotsTxt htext hx fuel base = []) ∧
    (∀ body, htext (base ++ "/robots.txt") = some (200, body) →
      robotsLineUrls hx fuel body ≠ [] →
      getUrlsFromRobotsTxt htext hx fuel base = robotsLineUrls hx fuel body) ∧
    (∀ body, htext (base ++ "/robots.txt") = some (200, body) →
      robotsLineUrls hx fuel body = [] →
      getUrlsFromRobotsTxt htext hx fuel base = probeCommon hx fuel base) := by
  refine ⟨?_, ?_, ?_, ?_⟩
  · intro h
    simp only [getUrlsFromRobotsTxt, h]
  · intro status body h hs
    simp only [getUrlsFromRobotsTxt, h]
    rw [if_pos hs]
  · intro body h hl
    simp only [getUrlsFromRobotsTxt, h]
    rw [if_neg (by simp), if_pos hl]
  · intro body h hl
    simp only [getUrlsFromRobotsTxt, h]
    rw [if_neg (by simp), if_neg (by simp [hl])]

/-! ## Claim theorems -/

/-- C1: manifest mode.  With non-empty `includeUrls = us`, every entry is
enqueued at depth 0 and pre-marked visited, the visited set is exactly the
normalized manifest and never changes over the run, no discovered link is
ever enqueued (the push log stays exactly the manifest and the queue only
shrinks), `applyManifest` forces `maxPages` to `us.length`, and under that
cap the queue always drains — with every render succeeding, the run's
results are exactly the manifest entries in order. -/
theorem C1_manifest_mode (test : String → String → Bool) (render : String → Option RenderOk)
    (req : CrawlRequest) (us : List String) (st0 : CrawlState)
    (hus : us ≠ []) (hinc : req.includeUrls = some us)
    (hinit : crawlInit req = some st0) :
    st0.queue = us.map (fun u => (u, 0)) ∧
    (∀ v, v ∈ st0.visited ↔ ∃ u ∈ us, v = normalizeUrl u) ∧
    st0.pushLog = us ∧
    (∀ fuel, (crawlLoop test render req fuel st0).visited = st0.visited ∧
             (crawlLoop test render req fuel st0).pushLog = us ∧
             ∃ k, (crawlLoop test render req fuel st0).queue = st0.queue.drop k) ∧
    (∀ r : CrawlRequest, (applyManifest r us).maxPages = some us.length ∧
                         (applyManifest r us).includeUrls = some us) ∧
    (req.maxPages = some us.length →
      (∀ fuel, us.length ≤ fuel → (crawlLoop test render req fuel st0).queue = []) ∧
      ((∀ u ∈ us, render u ≠ none) →
        (crawlLoop test render req us.length st0).results.map PageResult.url = us)) := by
  obtain ⟨hq0, hv0, hr0, hp0, hl0⟩ := crawlInit_manifest hinc hus hinit
  refine ⟨hq0, ?_, hl0, ?_, ?_, ?_⟩
  · intro v
    rw [hv0, mem_foldl_insert]
    simp
  · intro fuel
    obtain ⟨i1, i2, i3⟩ := crawlLoop_manifest_inv hinc fuel st0
    exact ⟨i1, i2.trans hl0, i3⟩
  · intro r
    exact ⟨rfl, rfl⟩
  · intro hmax
    have hmaxof : maxPagesOf req = us.length := by
      unfold maxPagesOf
      rw [hmax]
      rfl
    constructor
    · intro fuel hfuel
      apply crawlLoop_manifest_drain hinc
      · rw [hq0]
        simpa using hfuel
      · rw [hq0, hp0, hmaxof]
        simp
    · intro hren
      have hres := @crawlLoop_manifest_results test render req us hinc us st0
        (by rw [hq0]) hren (by rw [hp0, hmaxof]; simp)
      rw [hr0] at hres
      simpa using hres

/-- Witness for C1 on a concrete two-entry manifest run. -/
theorem C1_manifest_mode_witness :
    w1st.queue = [("https://a.com/x", 0), ("https://a.com/y", 0)] ∧
    ("https://a.com/x" ∈ w1st.visited ↔
      ∃ u ∈ ["https://a.com/x", "https://a.com/y"], "https://a.com/x" = normalizeUrl u) ∧
    (crawlLoop noRegex renderEcho w1req 5 w1st).visited = w1st.visited ∧
    w1req.maxPages = some 2 ∧
    (crawlLoop noRegex renderEcho w1req 2 w1st).results.map PageResult.url =
      ["https://a.com/x", "https://a.com/y"] := by
  have h := C1_manifest_mode noRegex renderEcho w1req ["https://a.com/x", "https://a.com/y"]
    w1st (by decide) (by decide) (by decide)
  refine ⟨h.1, h.2.1 "https://a.com/x", (h.2.2.2.1 5).1, by decide, ?_⟩
  have h5 := (h.2.2.2.2.2 (by decide)).2 (by decide)
  simpa using h5

/-- C2 counterexample: robots.txt answers 404 while `/sitemap.xml` would
yield a URL, yet the resolver returns `[]` without probing the common
paths — refuting "whenever steps 1-3 yield no URLs, the resolver probes the
common paths". -/
theorem C2_counterexample :
    c2htext "https://a.com/robots.txt" = some (404, "") ∧
    probeCommon c2hx 5 "https://a.com" = ["https://a.com/p1"] ∧
    getUrlsFromRobotsTxt c2htext c2hx 5 "https://a.com" = [] := by
  refine ⟨by decide, by decide, by decide⟩

/-- C2 (amended): a non-200 robots.txt fetch — like a network failure — is
treated as absent and yields `[]` immediately, WITHOUT probing the common
sitemap paths; the probe of `/sitemap.xml`, `/sitemap_index.xml`,
`/wp-sitemap.xml` (in order, stopping at the first that yields any URL) runs
only when robots.txt was fetched with status 200 and its `sitemap:` lines
yielded no URLs. -/
theorem C2_robots_probe (htext : String → Option (Nat × String))
    (hx : String → Option SiteXml) (fuel : Nat) (base : String) :
    (htext (base ++ "/robots.txt") = none → getUrlsFromRobotsTxt htext hx fuel base = []) ∧
    (∀ status body, htext (base ++ "/robots.txt") = some (status, body) → status ≠ 200 →
      getUrlsFromRobotsTxt htext hx fuel base = []) ∧
    (∀ body, htext (base ++ "/robots.txt") = some (200, body) →
      robotsLineUrls hx fuel body ≠ [] →
      getUrlsFromRobotsTxt htext hx fuel base = robotsLineUrls hx fuel body) ∧
    (∀ body, htext (base ++ "/robots.txt") = some (200, body) →
      robotsLineUrls hx fuel body = [] →
      getUrlsFromRobotsTxt htext hx fuel base = probeCommon hx fuel base) ∧
    (fetchSitemap hx fuel (base ++ "/sitemap.xml") ≠ [] →
      probeCommon hx fuel base = fetchSitemap hx fuel (base ++ "/sitemap.xml")) ∧
    (fetchSitemap hx fuel (base ++ "/sitemap.xml") = [] →
      fetchSitemap hx fuel (base ++ "/sitemap_index.xml") ≠ [] →
      probeCommon hx fuel base = fetchSitemap hx fuel (base ++ "/sitemap_index.xml")) ∧
    (fetchSitemap hx fuel (base ++ "/sitemap.xml") = [] →
      fetchSitemap hx fuel (base ++ "/sitemap_index.xml") = [] →
      probeCommon hx fuel base = fetchSitemap hx fuel (base ++ "/wp-sitemap.xml")) := by
  obtain ⟨g1, g2, g3, g4⟩ := getUrlsFromRobotsTxt_cases htext hx fuel base
  obtain ⟨p1, p2, p3⟩ := probeCommon_cases hx fuel base
  exact ⟨g1, g2, g3, g4, p1, p2, p3⟩

/-- Witness for the amended C2: a robots.txt with one `sitemap:` line
resolves through it. -/
theorem C2_robots_probe_witness :
    getUrlsFromRobotsTxt w2htext w2hx 5 "https://a.com" = ["https://a.com/q"] := by
  have h := (C2_robots_probe w2htext w2hx 5 "https://a.com").2.2.1
    "User-agent: *\nSitemap: https://a.com/sm.xml" (by decide) (by decide)
  rw [h]
  decide

/-- C3: for every run (any fuel), the number of results is at most
`maxPages` (`request.maxPages ?? 50`); with a depth limit set, every
recorded page's depth is at most that limit; and a queue entry beyond the
depth limit is only popped — it yields no result and does not advance the
processed count. -/
theorem C3_limits (test : String → String → Bool) (render : String → Option RenderOk)
    (req : CrawlRequest) (st0 : CrawlState) (fuel : Nat)
    (hinit : crawlInit req = some st0) :
    (crawlLoop test render req fuel st0).results.length ≤ maxPagesOf req ∧
    (∀ D, req.depth = some D →
      ∀ r ∈ (crawlLoop test render req fuel st0).results, r.depth ≤ D) ∧
    (∀ st : CrawlState, ∀ url d rest, st.queue = (url, d) :: rest →
      depthExceeded req.depth d = true →
      step test render req st = { st with queue := rest }) := by
  obtain ⟨hr0, hp0⟩ := crawlInit_zero hinit
  refine ⟨?_, ?_, fun st url d rest hq hd => step_skip hq hd⟩
  · have hstep : ∀ s : CrawlState, s.queue ≠ [] → s.pagesProcessed < maxPagesOf req →
        (s.results.length = s.pagesProcessed ∧ s.pagesProcessed ≤ maxPagesOf req) →
        ((step test render req s).results.length = (step test render req s).pagesProcessed ∧
         (step test render req s).pagesProcessed ≤ maxPagesOf req) := by
      intro s hq hp hi
      obtain ⟨b1, b2⟩ := step_bounds test render req s hi.1
      exact ⟨b1, by omega⟩
    have h := @crawlLoop_inv test render req _ hstep fuel st0
      ⟨by simp [hr0, hp0], by rw [hp0]; exact Nat.zero_le _⟩
    rw [h.1]
    exact h.2
  · intro D hD
    exact @crawlLoop_inv test render req (fun s => ∀ r ∈ s.results, r.depth ≤ D)
      (fun s _ _ hs => step_depthBound test render req s hD hs) fuel st0
      (by intro r hr; rw [hr0] at hr; simp at hr)

/-- Witness for C3 on a concrete bounded run. -/
theorem C3_limits_witness :
    (crawlLoop noRegex renderEcho w3req 5 w3st).results.length ≤ maxPagesOf w3req ∧
    (∀ r ∈ (crawlLoop noRegex renderEcho w3req 5 w3st).results, r.depth ≤ 1) := by
  have h := C3_limits noRegex renderEcho w3req w3st 5 (by decide)
  exact ⟨h.1, h.2.1 1 rfl⟩

/-- C4 counterexample: a duplicated manifest entry is pushed twice by the
seeding loop, so "no URL is enqueued twice in one run" fails on the code. -/
theorem C4_counterexample :
    (crawlInit c4req).map CrawlState.pushLog =
      some ["https://a.com/x", "https://a.com/x"] ∧
    ¬ (["https://a.com/x", "https://a.com/x"] : List String).Nodup := by
  exact ⟨by decide, by decide⟩

/-- C4 (amended): the visited set of normalized URLs only grows over any
run — manifest or not, from any starting state; in non-manifest mode
visited-membership is the dedup gate for every enqueue, so no URL is ever
enqueued twice (the push log stays duplicate-free, and every pushed URL's
normalization is visited); manifest seeding, however, pushes duplicated
`includeUrls` entries verbatim. -/
theorem C4_dedup (test : String → String → Bool) (render : String → Option RenderOk) :
    (∀ (req : CrawlRequest) (st : CrawlState) (fuel : Nat),
      st.visited ⊆ (crawlLoop test render req fuel st).visited) ∧
    (∀ (req : CrawlRequest) (st0 : CrawlState), req.includeUrls = none →
      crawlInit req = some st0 →
      ∀ fuel, (crawlLoop test render req fuel st0).pushLog.Nodup ∧
        ∀ u ∈ (crawlLoop test render req fuel st0).pushLog,
          normalizeUrl u ∈ (crawlLoop test render req fuel st0).visited) := by
  constructor
  · intro req st fuel
    induction fuel generalizing st with
    | zero => exact fun x hx => hx
    | succ n ih =>
      simp only [crawlLoop]
      by_cases hg : st.queue ≠ [] ∧ st.pagesProcessed < maxPagesOf req
      · rw [if_pos hg]
        exact fun x hx =>
          ih (step test render req st) (step_visited_sub test render req st hx)
      · rw [if_neg hg]
        exact fun x hx => hx
  · intro req st0 hinc hinit fuel
    obtain ⟨hv0, hq0, hl0⟩ := crawlInit_seed hinc hinit
    refine @crawlLoop_inv test render req
      (fun s => s.pushLog.Nodup ∧ ∀ u ∈ s.pushLog, normalizeUrl u ∈ s.visited)
      (fun s _ _ hi => step_pushInv hi.1 hi.2) fuel st0 ⟨?_, ?_⟩
    · rw [hl0]
      exact List.nodup_singleton _
    · rw [hl0, hv0]
      intro u hu
      simp only [List.mem_singleton] at hu
      subst hu
      simp

/-- Witness for the amended C4: visited-set growth on a non-manifest run AND
on a manifest-mode run, plus the duplicate-free push log of the non-manifest
run. -/
theorem C4_dedup_witness :
    w3st.visited ⊆ (crawlLoop noRegex renderEcho w3req 4 w3st).visited ∧
    w1st.visited ⊆ (crawlLoop noRegex renderEcho w1req 4 w1st).visited ∧
    (crawlLoop noRegex renderEcho w3req 4 w3st).pushLog.Nodup := by
  have h := C4_dedup noRegex renderEcho
  exact ⟨h.1 w3req w3st 4, h.1 w1req w1st 4, (h.2 w3req w3st rfl (by decide) 4).1⟩

/-- C5: `isValidUrl` returns true only if the URL parses, its origin equals
the crawler's base origin, no exclude pattern matches the full URL, and the
lower-cased path ends in none of the filtered extensions; it is total, and a
parse failure yields false. -/
theorem C5_isCrawlable (test : String → String → Bool) (pats : List String)
    (base url : String) :
    (isValidUrl test pats base url = true →
      ∃ u, parseUrl url.data = some u ∧ originS u = base ∧
        (∀ pat ∈ pats, test pat url = false) ∧
        (∀ ext ∈ extensionsList, List.isSuffixOf ext.data (toLowerL u.path) = false)) ∧
    (parseUrl url.data = none → isValidUrl test pats base url = false) := by
  exact ⟨fun h => isValidUrl_elim h, fun h => isValidUrl_parse_fail h⟩

/-- Witness for C5: accepts a same-origin extension-less URL (deriving the
guarantees from the theorem), rejects a same-origin `.pdf`, a cross-origin
URL, a pattern-excluded URL and an unparseable URL. -/
theorem C5_isCrawlable_witness :
    isValidUrl noRegex [] "https://a.com" "https://a.com/page" = true ∧
    (∃ u, parseUrl "https://a.com/page".data = some u ∧ originS u = "https://a.com" ∧
      (∀ pat ∈ ([] : List String), noRegex pat "https://a.com/page" = false) ∧
      (∀ ext ∈ extensionsList, List.isSuffixOf ext.data (toLowerL u.path) = false)) ∧
    isValidUrl noRegex [] "https://a.com" "https://a.com/doc.pdf" = false ∧
    isValidUrl noRegex [] "https://a.com" "https://b.com/x" = false ∧
    isValidUrl prefixRegex ["https://a.com/admin"] "https://a.com"
      "https://a.com/admin/x" = false ∧
    isValidUrl noRegex [] "https://a.com" "%%%" = false := by
  refine ⟨by decide,
    (C5_isCrawlable noRegex [] "https://a.com" "https://a.com/page").1 (by decide),
    by decide, by decide, by decide,
    (C5_isCrawlable noRegex [] "https://a.com" "%%%").2 (by decide)⟩

/-- C6 counterexample: `normalizeUrl` strips only one trailing slash per
application, so a parseable URL whose path ends in a double slash is not a
fixed point of one application — idempotence fails at
`https://ex.com/a//`. -/
theorem C6_counterexample :
    (parseUrl "https://ex.com/a//".data).isSome = true ∧
    normalizeUrl "https://ex.com/a//" = "https://ex.com/a/" ∧
    normalizeUrl "https://ex.com/a/" = "https://ex.com/a" ∧
    normalizeUrl (normalizeUrl "https://ex.com/a//") ≠ normalizeUrl "https://ex.com/a//" := by
  refine ⟨by decide, by decide, by decide, by decide⟩

/-- C6 (amended): normalization is idempotent for every URL that parses,
provided stripping the path's one trailing slash does not expose another
trailing slash — that is, unless the parsed path ends in `//` and is longer
than the bare `"//"` (which normalizes to the root and stays fixed). -/
theorem C6_normalize_idempotent (s : String) (u : Url)
    (h : parseUrl s.data = some u)
    (hp : u.path.getLast? = some '/' → u.path.dropLast.getLast? = some '/' →
      u.path.dropLast = ['/']) :
    normalizeUrl (normalizeUrl s) = normalizeUrl s := by
  exact congrArg String.mk (normalizeL_idem h hp)

/-- Witness for the amended C6 at a URL with a single trailing slash. -/
theorem C6_normalize_idempotent_witness :
    normalizeUrl (normalizeUrl "https://ex.com/a/b/") = normalizeUrl "https://ex.com/a/b/" :=
  C6_normalize_idempotent "https://ex.com/a/b/"
    ⟨"https".data, "ex.com".data, "/a/b/".data, [], []⟩ (by decide) (by decide)

/-- C7: the page key produced at the persistence call site is the domain
plus the rewritten path plus `".json"` — leading slash ensured, one trailing
slash stripped, a bare `/` rewritten to `/index` — in particular
`https://ex.com/a/b/` with domain `ex.com` yields `ex.com/a/b.json` and
`https://ex.com/` yields `ex.com/index.json`; on URL parse failure the key
falls back to `domain ++ "/" ++ md5(url) ++ ".json"`. -/
theorem C7_hierarchical_key (md5f : String → String) (domain : String) :
    (∀ url u, parseUrl url.data = some u →
      pageJsonKey md5f url domain = domain ++ String.mk (hierPath u.path) ++ ".json") ∧
    pageJsonKey md5f "https://ex.com/a/b/" "ex.com" = "ex.com/a/b.json" ∧
    pageJsonKey md5f "https://ex.com/" "ex.com" = "ex.com/index.json" ∧
    (∀ url, parseUrl url.data = none →
      pageJsonKey md5f url domain = domain ++ "/" ++ md5f url ++ ".json") := by
  refine ⟨?_, ?_, ?_, ?_⟩
  · intro url u h
    unfold pageJsonKey getHierarchicalKey
    rw [h]
  · rfl
  · rfl
  · intro url h
    unfold pageJsonKey getHierarchicalKey
    rw [h]

/-- Witness for C7: the hierarchical example and the md5 fallback at a
concrete digest oracle. -/
theorem C7_hierarchical_key_witness :
    pageJsonKey (fun _ => "d41d8cd9") "https://ex.com/a/b/" "ex.com" = "ex.com/a/b.json" ∧
    pageJsonKey (fun _ => "d41d8cd9") "%%%" "ex.com" = "ex.com/d41d8cd9.json" := by
  have h := C7_hierarchical_key (fun _ => "d41d8cd9") "ex.com"
  refine ⟨h.2.1, ?_⟩
  rw [h.2.2.2 "%%%" (by decide)]
  decide

/-- C8: resolving a sitemap URL recursively concatenates the children's
results for a sitemap index, collects the `loc` entries for a urlset, and
turns any fetch or parse failure into `[]` for that node without aborting
its siblings; the concrete oracle `c8hx` — an index over a 3-URL child, a
failing child and a 5-URL child — yields 8 URLs in total. -/
theorem C8_resolveSitemap :
    (∀ (hx : String → Option SiteXml) (url : String)
        (children : List (Option String)) (fuel : Nat),
      hx url = some (.index children) →
      fetchSitemap hx (fuel + 1) url = children.flatMap (fun sm =>
        match sm with
        | some loc => if loc = "" then [] else fetchSitemap hx fuel loc
        | none => [])) ∧
    (∀ (hx : String → Option SiteXml) (url : String)
        (entries : List (Option String)) (fuel : Nat),
      hx url = some (.urlset entries) →
      fetchSitemap hx (fuel + 1) url = entries.filterMap (fun e =>
        match e with
        | some loc => if loc = "" then none else some loc
        | none => none)) ∧
    (∀ (hx : String → Option SiteXml) (url : String) (fuel : Nat),
      hx url = none → fetchSitemap hx fuel url = []) ∧
    fetchSitemap c8hx 3 "https://s.com/bad.xml" = [] ∧
    (fetchSitemap c8hx 3 "https://s.com/root.xml").length = 8 := by
  refine ⟨fun hx url children fuel h => fetchSitemap_index fuel h,
          fun hx url entries fuel h => fetchSitemap_urlset fuel h,
          fun hx url fuel h => fetchSitemap_failure h fuel,
          by decide, by decide⟩

/-- Witness for C8: unfolding the concrete index through the theorem's index
equation. -/
theorem C8_resolveSitemap_witness :
    fetchSitemap c8hx 3 "https://s.com/root.xml" =
      ([some "https://s.com/a.xml", some "https://s.com/bad.xml",
        some "https://s.com/b.xml"] : List (Option String)).flatMap (fun sm =>
        match sm with
        | some loc => if loc = "" then [] else fetchSitemap c8hx 2 loc
        | none => []) :=
  C8_resolveSitemap.1 c8hx "https://s.com/root.xml"
    [some "https://s.com/a.xml", some "https://s.com/bad.xml", some "https://s.com/b.xml"]
    2 (by decide)

/-- C9: a failed page render (the `page.goto` oracle returning `none`) is
caught and skipped — the step only pops the entry, the failed page produces
no `PageResult`, the processed count does not advance, and the loop
continues with the next queue entry. -/
theorem C9_failed_render (test : String → String → Bool) (render : String → Option RenderOk)
    (req : CrawlRequest) (st : CrawlState) (url : String) (d : Nat)
    (rest : List (String × Nat))
    (hq : st.queue = (url, d) :: rest)
    (hd : depthExceeded req.depth d = false)
    (hfail : render url = none)
    (hp : st.pagesProcessed < maxPagesOf req) :
    step test render req st = { st with queue := rest } ∧
    (step test render req st).results = st.results ∧
    (step test render req st).pagesProcessed = st.pagesProcessed ∧
    (∀ fuel, crawlLoop test render req (fuel + 1) st =
      crawlLoop test render req fuel { st with queue := rest }) := by
  have h := @step_fail test render req st url d rest hq hd hfail
  refine ⟨h, by rw [h], by rw [h], ?_⟩
  intro fuel
  rw [crawlLoop_succ (by rw [hq]; simp) hp, h]

/-- Witness for C9: a concrete run whose first entry fails to render still
processes the second entry. -/
theorem C9_failed_render_witness :
    step noRegex c9render c9req c9st = { c9st with queue := [("https://a.com/g", 0)] } ∧
    (crawlLoop noRegex c9render c9req 2 c9st).results.map PageResult.url =
      ["https://a.com/g"] := by
  have h := C9_failed_render noRegex c9render c9req c9st "https://a.com/f" 0
    [("https://a.com/g", 0)] (by decide) (by decide) (by decide) (by decide)
  exact ⟨h.1, by decide⟩

/-- C10 counterexample: the first processed page's final origin differs from
the seed's and the base is rebased, yet links keep being enqueued —
`https://a.com/x` has the rebased origin and still starts with the seed
string `https://a.co`, and even after the first iteration a further link is
pushed. -/
theorem C10_counterexample :
    crawlInit c10req = some c10st ∧
    c10st.baseUrl = "https://a.co" ∧
    (crawlLoop noRegex c10render c10req 1 c10st).baseUrl = "https://a.com" ∧
    (crawlLoop noRegex c10render c10req 1 c10st).pagesProcessed = 1 ∧
    (crawlLoop noRegex c10render c10req 2 c10st).pushLog =
      ["https://a.co", "https://a.com/x", "https://a.com/y"] := by
  refine ⟨by decide, rfl, by decide, by decide, by decide⟩

/-- C10 (amended): after the first processed page has rebased the base URL
to an origin different from the seed URL's origin, a link can only be
enqueued if the seed URL string is a prefix of the new base; hence whenever
the seed URL is NOT a string prefix of the rebased base, no link is ever
enqueued for the remainder of the run — the visited set and push log stay
frozen, the queue only shrinks, and the crawl processes at most the pages
already queued. -/
theorem C10_no_expansion_after_rebase (test : String → String → Bool)
    (render : String → Option RenderOk) (req : CrawlRequest) (st : CrawlState) (p : Url)
    (hreq : parseUrl req.url.data = some p)
    (hproc : 1 ≤ st.pagesProcessed)
    (hne : originS p ≠ st.baseUrl)
    (hnp : listStartsWith st.baseUrl.data req.url.data = false) (fuel : Nat) :
    (crawlLoop test render req fuel st).visited = st.visited ∧
    (crawlLoop test render req fuel st).pushLog = st.pushLog ∧
    (∃ k, (crawlLoop test render req fuel st).queue = st.queue.drop k) ∧
    (crawlLoop test render req fuel st).results.length ≤
      st.results.length + st.queue.length := by
  have hnp' : ¬ IsPre req.url.data st.baseUrl.data := by
    rw [← listStartsWith_iff]
    simp [hnp]
  obtain ⟨_, _, e3, e4, e5, e6⟩ := crawlLoop_no_expansion hproc hreq hne hnp' fuel
  exact ⟨e3, e4, e5, by omega⟩

/-- Witness for the amended C10: a rebased run whose pages keep serving
same-new-origin links enqueues none of them. -/
theorem C10_no_expansion_witness :
    (crawlLoop noRegex w10render w10req 3 w10st).pushLog = w10st.pushLog ∧
    (crawlLoop noRegex w10render w10req 3 w10st).visited = w10st.visited := by
  have h := C10_no_expansion_after_rebase noRegex w10render w10req w10st
    ⟨"https".data, "a.co".data, "/shop".data, [], []⟩ (by decide) (by decide) (by decide)
    (by decide) 3
  exact ⟨h.2.1, h.1⟩

end Spec2Proof
